import Mathlib

/-!
Verification of the scan/analyze/clean core of a desktop garbage-cleaner
utility.  The Python source (src/core/scanner.py, src/core/cleaner.py,
src/core/analyzer.py, src/utils/size_utils.py) is shallowly embedded below:

* Python machine integers are modelled as `ℤ`/`ℕ`;
* Python `float` (IEEE-754 binary64) values are modelled as exact rationals,
  together with an exact model `fl53` of round-to-nearest-even at 53
  significant bits, which is applied at every arithmetic step whose result
  is not known to be exactly representable (integer→float conversion,
  division, multiplication).  Divisions by powers of two are exact in
  binary64 (no underflow occurs at the magnitudes involved), and are
  modelled as exact rational divisions;
* Python `int(x)` (truncation towards zero) is `pyTrunc`;
* the filesystem is modelled as an explicit value (a tree for the analyzer,
  a flat list of paths for the cleaner); OS errors during an operation are
  modelled by an explicit `raises` map injecting an exception message;
* callbacks that may raise are modelled by a predicate saying at which
  invocation an exception is thrown; background threads are modelled as
  pure functions from their inputs to the trace of callback invocations
  they perform plus their final state.
-/

namespace PCGC

/-! ## Python numeric primitives -/

/-- Python `int(x)` applied to a float: truncation towards zero. -/
def pyTrunc (q : ℚ) : ℤ :=
  if 0 ≤ q then ⌊q⌋ else -⌊-q⌋

/-- Round half to even: the rounding used by IEEE-754 binary64 arithmetic
and by CPython's correctly-rounded float formatting. -/
def rhe (q : ℚ) : ℤ :=
  if q - ⌊q⌋ < 1/2 then ⌊q⌋
  else if (1:ℚ)/2 < q - ⌊q⌋ then ⌊q⌋ + 1
  else if Even ⌊q⌋ then ⌊q⌋ else ⌊q⌋ + 1

/-- Exact model of rounding a positive real to the nearest IEEE-754 binary64
value (round-to-nearest, ties to even), ignoring overflow and subnormals,
which do not occur at the magnitudes the program manipulates.  For `q ≤ 0`
we return `0` (the program only rounds positive values). -/
def fl53 (q : ℚ) : ℚ :=
  if 0 < q then
    (rhe (q / 2 ^ (Int.log 2 q - 52)) : ℚ) * 2 ^ (Int.log 2 q - 52)
  else 0

theorem rhe_intCast (z : ℤ) : rhe (z : ℚ) = z := by
  simp [rhe]

theorem rhe_sub_le (q : ℚ) : |(rhe q : ℚ) - q| ≤ 1/2 := by
  have h0 : (⌊q⌋ : ℚ) ≤ q := Int.floor_le q
  have h1 : q < ⌊q⌋ + 1 := Int.lt_floor_add_one q
  unfold rhe
  split
  · rename_i h
    rw [abs_le]; constructor <;> push_cast <;> linarith
  · rename_i h
    push_neg at h
    split
    · rename_i h2
      rw [abs_le]; constructor <;> push_cast <;> linarith
    · rename_i h2
      push_neg at h2
      have : q - ⌊q⌋ = 1/2 := le_antisymm h2 h
      split <;> (rw [abs_le]; constructor <;> push_cast <;> linarith)

theorem rhe_ge_floor (q : ℚ) : ⌊q⌋ ≤ rhe q := by
  unfold rhe
  split
  · exact le_rfl
  · split
    · omega
    · split <;> omega

theorem rhe_le_floor_add_one (q : ℚ) : rhe q ≤ ⌊q⌋ + 1 := by
  unfold rhe
  split
  · omega
  · split
    · omega
    · split <;> omega

theorem pyTrunc_of_nonneg {q : ℚ} (h : 0 ≤ q) : pyTrunc q = ⌊q⌋ := by
  simp [pyTrunc, h]

theorem pyTrunc_intCast (z : ℤ) : pyTrunc (z : ℚ) = z := by
  rcases le_or_lt 0 (z : ℚ) with h | h
  · rw [pyTrunc_of_nonneg h, Int.floor_intCast]
  · unfold pyTrunc
    rw [if_neg (not_le.mpr h)]
    rw [show -(z:ℚ) = ((-z : ℤ) : ℚ) by push_cast; ring, Int.floor_intCast]
    omega

/-- Basic accuracy of `fl53`: the rounded value is within half an ulp,
hence within `q * 2⁻⁵³`, of the exact value. -/
theorem fl53_sub_le {q : ℚ} (hq : 0 < q) :
    |fl53 q - q| ≤ q * (2 ^ 53)⁻¹ := by
  unfold fl53
  rw [if_pos hq]
  set e : ℤ := Int.log 2 q - 52 with he
  have hpow : (0:ℚ) < 2 ^ e := by positivity
  have hlog : (2:ℚ) ^ (Int.log 2 q) ≤ q := by
    exact_mod_cast Int.zpow_log_le_self (by norm_num : 1 < 2) hq
  have key : |(rhe (q / 2 ^ e) : ℚ) - q / 2 ^ e| ≤ 1/2 := rhe_sub_le _
  have expand : (rhe (q / 2 ^ e) : ℚ) * 2 ^ e - q
      = ((rhe (q / 2 ^ e) : ℚ) - q / 2 ^ e) * 2 ^ e := by
    field_simp
  rw [expand, abs_mul, abs_of_pos hpow]
  have step1 : |(rhe (q / 2 ^ e) : ℚ) - q / 2 ^ e| * 2 ^ e ≤ (1/2) * 2 ^ e :=
    mul_le_mul_of_nonneg_right key (le_of_lt hpow)
  refine le_trans step1 ?_
  have h2 : (1:ℚ)/2 * 2 ^ e = 2 ^ (Int.log 2 q - 53) := by
    rw [he]
    rw [show Int.log 2 q - 52 = (Int.log 2 q - 53) + 1 by ring, zpow_add₀ (by norm_num : (2:ℚ) ≠ 0)]
    ring
  rw [h2]
  have h3 : (2:ℚ) ^ (Int.log 2 q - 53) = 2 ^ (Int.log 2 q) * (2 ^ 53)⁻¹ := by
    rw [zpow_sub₀ (by norm_num : (2:ℚ) ≠ 0)]
    norm_num
    rw [mul_one_div]
  rw [h3]
  exact mul_le_mul_of_nonneg_right hlog (by positivity)

theorem log2_eq {q : ℚ} {e : ℤ} (h1 : (2:ℚ) ^ e ≤ q) (h2 : q < 2 ^ (e + 1)) :
    Int.log 2 q = e := by
  have hq : 0 < q := lt_of_lt_of_le (by positivity) h1
  have hb : 1 < 2 := by norm_num
  have hle : e ≤ Int.log 2 q := by
    rw [← Int.zpow_le_iff_le_log hb hq]
    exact_mod_cast h1
  have hlt : Int.log 2 q < e + 1 := by
    rw [← Int.lt_zpow_iff_log_lt hb hq]
    exact_mod_cast h2
  omega

theorem rhe_eq_of {q : ℚ} {n : ℤ} (h1 : (n:ℚ) - 1/2 < q) (h2 : q < (n:ℚ) + 1/2) :
    rhe q = n := by
  rcases le_or_lt (n:ℚ) q with h | h
  · have hf : ⌊q⌋ = n := by
      rw [Int.floor_eq_iff]
      constructor
      · exact_mod_cast h
      · push_cast; linarith
    unfold rhe
    rw [hf, if_pos]
    push_cast
    linarith
  · have hf : ⌊q⌋ = n - 1 := by
      rw [Int.floor_eq_iff]
      constructor
      · push_cast; linarith
      · push_cast; linarith
    unfold rhe
    rw [hf, if_neg, if_pos]
    · omega
    · push_cast; linarith
    · push_cast; linarith

theorem floor_eval {q : ℚ} {n : ℤ} (h1 : (n:ℚ) ≤ q) (h2 : q < (n:ℚ) + 1) :
    ⌊q⌋ = n := by
  rw [Int.floor_eq_iff]
  exact ⟨by exact_mod_cast h1, by push_cast; linarith⟩

/-- When the value scaled to its ulp grid is an integer, the binary64 value
is exactly representable and `fl53` is the identity on it. -/
theorem fl53_of_int_mul {x : ℚ} (hx : 0 < x) {z : ℤ}
    (hz : x / 2 ^ (Int.log 2 x - 52) = (z : ℚ)) : fl53 x = x := by
  unfold fl53
  rw [if_pos hx, hz, rhe_intCast, ← hz]
  field_simp

/-- Concrete evaluation rule for `fl53`. -/
theorem fl53_eval {q : ℚ} {e : ℤ} {m : ℤ}
    (h1 : (2:ℚ) ^ e ≤ q) (h2 : q < 2 ^ (e + 1))
    (h3 : rhe (q / 2 ^ (e - 52)) = m) :
    fl53 q = (m : ℚ) * 2 ^ (e - 52) := by
  have hq : 0 < q := lt_of_lt_of_le (by positivity) h1
  unfold fl53
  rw [if_pos hq, log2_eq h1 h2, h3]

/-- Integers of magnitude at most `2⁵³` times a power of two are exactly
representable in binary64. -/
theorem fl53_dyadic {m j : ℤ} (hm : 0 < m) (hm2 : m ≤ 2 ^ 53) :
    fl53 ((m : ℚ) * 2 ^ j) = (m : ℚ) * 2 ^ j := by
  set x : ℚ := (m : ℚ) * 2 ^ j with hxdef
  have hx : 0 < x := by positivity
  rcases eq_or_lt_of_le hm2 with hm53 | hm53
  · -- m = 2^53 : x = 2^(j+53), an exact power of two
    have hx53 : x = (2:ℚ) ^ (j + 53) := by
      rw [hxdef, hm53]
      push_cast
      rw [zpow_add₀ (by norm_num : (2:ℚ) ≠ 0), mul_comm]
      norm_num
    have hlog : Int.log 2 x = j + 53 := by
      rw [hx53]
      exact_mod_cast Int.log_zpow (R := ℚ) (by norm_num : 1 < 2) (j + 53)
    apply fl53_of_int_mul hx (z := 2 ^ 52)
    rw [hlog, hx53]
    rw [div_eq_iff (by positivity)]
    have hc : (((2:ℤ) ^ 52 : ℤ) : ℚ) = (2:ℚ) ^ ((52:ℕ) : ℤ) := by
      norm_num
    rw [hc, ← zpow_add₀ (by norm_num : (2:ℚ) ≠ 0)]
    congr 1
    push_cast
    ring
  · -- 0 < m < 2^53 : the ulp at x is 2^(j + t - 52) with t = Nat.log 2 m ≤ 52
    set t : ℕ := Nat.log 2 m.toNat with htdef
    have hm1 : 1 ≤ m.toNat := by omega
    have hlo : 2 ^ t ≤ m.toNat := Nat.pow_log_le_self 2 (by omega)
    have hhi : m.toNat < 2 ^ (t + 1) := Nat.lt_pow_succ_log_self (by norm_num) _
    have ht52 : t ≤ 52 := by
      by_contra hc
      have h53le : 53 ≤ t := by omega
      have : (2:ℕ) ^ 53 ≤ 2 ^ t := Nat.pow_le_pow_right (by norm_num) h53le
      have hmn : m.toNat < 2 ^ 53 := by
        have := hm53
        omega
      omega
    have hmq : (m : ℚ) = (m.toNat : ℚ) := by
      congr 1
      omega
    have hlog : Int.log 2 x = j + t := by
      apply log2_eq
      · rw [hxdef, hmq]
        rw [zpow_add₀ (by norm_num : (2:ℚ) ≠ 0)]
        have h1 : (2:ℚ) ^ (t:ℤ) ≤ (m.toNat : ℚ) := by
          rw [zpow_natCast]
          exact_mod_cast hlo
        have h2 : (0:ℚ) < 2 ^ j := by positivity
        calc (2:ℚ) ^ j * 2 ^ (t:ℤ) ≤ 2 ^ j * (m.toNat : ℚ) := by
              exact mul_le_mul_of_nonneg_left h1 (le_of_lt h2)
          _ = (m.toNat : ℚ) * 2 ^ j := by ring
      · rw [hxdef, hmq]
        rw [show j + (t:ℤ) + 1 = j + ((t:ℤ) + 1) by ring,
          zpow_add₀ (by norm_num : (2:ℚ) ≠ 0)]
        have h1 : (m.toNat : ℚ) < (2:ℚ) ^ ((t:ℤ) + 1) := by
          rw [show (t:ℤ) + 1 = ((t + 1 : ℕ) : ℤ) by push_cast; ring, zpow_natCast]
          exact_mod_cast hhi
        have h2 : (0:ℚ) < 2 ^ j := by positivity
        calc (m.toNat : ℚ) * 2 ^ j < (2:ℚ) ^ ((t:ℤ) + 1) * 2 ^ j := by
              exact mul_lt_mul_of_pos_right h1 h2
          _ = 2 ^ j * 2 ^ ((t:ℤ) + 1) := by ring
    apply fl53_of_int_mul hx (z := m * 2 ^ (52 - t))
    rw [hlog, hxdef]
    rw [div_eq_iff (by positivity)]
    push_cast
    rw [show j + (t:ℤ) - 52 = j - ((52:ℤ) - t) by ring,
      zpow_sub₀ (by norm_num : (2:ℚ) ≠ 0)]
    rw [show ((52:ℤ) - t) = ((52 - t : ℕ) : ℤ) by omega, zpow_natCast]
    field_simp
    ring

/-! ## scanner.py : `ScanFilter.match_file` (src/core/scanner.py, lines 13-71)

Python truthiness of `self.max_size` / `self.min_age_days` (each `None` or an
int): `None` and `0` are falsy.  `datetime` values are modelled as integer
epoch seconds; `timedelta.days` floors towards minus infinity, i.e. `Int.fdiv`
by 86400.  `os.path.splitext(p)[1]` is modelled on the char list of the path
(separator `/`): the extension starts at the last dot of the final path
component, unless that component consists only of leading dots. -/

/-- Python truthiness of an `Optional[int]` field. -/
def truthyOptInt : Option ℤ → Bool
  | none => false
  | some n => n != 0

/-- Final path component (model of `os.path.basename` for `/`-separated
paths). -/
def lastComponent (p : List Char) : List Char :=
  (p.reverse.takeWhile (fun c => c ≠ '/')).reverse

/-- Model of `os.path.splitext(p)[1]`: extension (with leading dot) of the
final component, empty when the component has no dot or only leading dots. -/
def splitextExt (p : List Char) : List Char :=
  let base := lastComponent p
  let afterDotRev := base.reverse.takeWhile (fun c => c ≠ '.')
  if afterDotRev.length = base.length then []
  else if (base.take (base.length - afterDotRev.length - 1)).all (fun c => c = '.') then []
  else '.' :: afterDotRev.reverse

structure ScanFilter where
  min_size : ℤ := 0
  max_size : Option ℤ := none
  min_age_days : Option ℤ := none
  extensions : List String := []
  exclude_exts : List String := []

/-- Embedding of `ScanFilter.match_file`.  `now` models `datetime.now()` in
epoch seconds, `modTime` the file's modification time. -/
def ScanFilter.matchFile (f : ScanFilter) (filePath : String) (fileSize : ℤ)
    (modTime now : ℤ) : Bool :=
  if f.min_size > 0 ∧ fileSize < f.min_size then false
  else if truthyOptInt f.max_size = true ∧ fileSize > f.max_size.getD 0 then false
  else if truthyOptInt f.min_age_days = true ∧
      Int.fdiv (now - modTime) 86400 < (f.min_age_days.getD 0) then false
  else if f.extensions ≠ [] ∨ f.exclude_exts ≠ [] then
    let ext : String := ⟨(splitextExt filePath.data).map Char.toLower⟩
    if f.extensions ≠ [] ∧ ext ∉ f.extensions then false
    else if f.exclude_exts ≠ [] ∧ ext ∈ f.exclude_exts then false
    else true
  else true

/-! ## scanner.py : `Scanner.remove_target` (lines 265-273)

`del lst[i]` raises `IndexError` when the (negative-wrapped) index is out of
range; this possibility is modelled by an `Option` result (`none` =
uncaught exception).  `remove_target` guards the deletion with
`0 <= target_index < len(self.targets)`. -/

/-- Model of Python `del l[i]` (negative indices wrap; out of range raises). -/
def pyDelAt {α : Type} (l : List α) (i : ℤ) : Option (List α) :=
  let j : ℤ := if i < 0 then i + l.length else i
  if 0 ≤ j ∧ j < l.length then some (l.eraseIdx j.toNat) else none

/-- Embedding of `Scanner.remove_target` acting on the target list. -/
def removeTarget {α : Type} (l : List α) (i : ℤ) : Option (List α) :=
  if 0 ≤ i ∧ i < l.length then pyDelAt l i else some l

/-! ## Run-flag guards of `Scanner.scan`, `Cleaner.clean`,
`Analyzer.analyze_disk` (scanner.py lines 422-446, cleaner.py lines 87-117,
analyzer.py lines 215-239).

Only the state manipulated by the guard is modelled: the run flag and the
abort flag.  `Scanner.scan` and `Cleaner.clean` return `True` after spawning
the thread and `False` when already running; `Analyzer.analyze_disk` returns
`None` on both paths (`return` with no value, and falling off the end), which
is modelled as `none`; `some b` would model `return b`. -/

structure ScannerState where
  running : Bool
  abort_flag : Bool
deriving DecidableEq

/-- Embedding of the guard/start portion of `Scanner.scan`. -/
def scanStart (s : ScannerState) : ScannerState × Bool :=
  if s.running then (s, false)
  else ({ running := true, abort_flag := false }, true)

structure CleanerState where
  running : Bool
  abort_flag : Bool
deriving DecidableEq

/-- Embedding of the guard/start portion of `Cleaner.clean`. -/
def cleanStart (s : CleanerState) : CleanerState × Bool :=
  if s.running then (s, false)
  else ({ running := true, abort_flag := false }, true)

structure AnalyzerState where
  is_analyzing : Bool
  aborted : Bool
deriving DecidableEq

/-- Embedding of the guard/start portion of `Analyzer.analyze_disk`.  The
function body never executes a `return` with a value: the early-rejection
path is a bare `return` and the start path falls off the end, so the Python
call evaluates to `None` either way (`none` here). -/
def analyzeDiskStart (s : AnalyzerState) : AnalyzerState × Option Bool :=
  if s.is_analyzing then (s, none)
  else ({ is_analyzing := s.is_analyzing, aborted := false }, none)

/-! ## scanner.py : `Scanner._scan_thread` (lines 448-492)

The thread body is modelled as a pure function returning the trace of
callback invocations (progress calls and per-target walks) together with the
final state of the completion/run flags.  Modelling notes, all visible in the
source:
* `enabled_targets` has already been filtered; `total` is its length, and the
  walk of each target (`_scan_target`) swallows its own exceptions, so only
  the progress callback can raise inside the loop.  `pcb c t p = true` means
  the caller-supplied progress callback raises at invocation `(c, t, p)`.
* percent before a walk is `int((current - 0.5) * 100 / total)` and after is
  `int(current * 100 / total)`: an exact integer numerator divided by
  `total` in binary64 and truncated, which equals the rational floor
  `(100 * current - 50) / total` (resp. `(100 * current) / total`) for every
  `total < 2 ^ 46`; it is modelled as that natural floor division.
* there is no `try/finally`: `self.running = False` and the completion
  callback are reached only if the loop finishes without an exception.
* the abort flag is modelled as never set (no concurrent `abort_scan`). -/

inductive ScanEv where
  | prog (cur total pct : ℕ)
  | walk (idx : ℕ)
deriving DecidableEq

structure ScanThreadOut where
  trace : List ScanEv
  completed : Bool
  running : Bool
deriving DecidableEq

/-- Loop of `_scan_thread`: `remaining` targets left, `current` targets done. -/
def scanThreadGo (total : ℕ) (pcb : ℕ → ℕ → ℕ → Bool) :
    (remaining current : ℕ) → ScanThreadOut
  | 0, _ => { trace := [], completed := true, running := false }
  | r + 1, current =>
    let c := current + 1
    let pctB := (100 * c - 50) / total
    if pcb (c - 1) total pctB then
      { trace := [ScanEv.prog (c - 1) total pctB], completed := false, running := true }
    else
      let pctA := (100 * c) / total
      if pcb c total pctA then
        { trace := [ScanEv.prog (c - 1) total pctB, ScanEv.walk c, ScanEv.prog c total pctA],
          completed := false, running := true }
      else
        let rest := scanThreadGo total pcb r c
        { trace := ScanEv.prog (c - 1) total pctB :: ScanEv.walk c ::
            ScanEv.prog c total pctA :: rest.trace,
          completed := rest.completed, running := rest.running }

/-- Embedding of `Scanner._scan_thread` over `n` enabled targets. -/
def scanThreadModel (n : ℕ) (pcb : ℕ → ℕ → ℕ → Bool) : ScanThreadOut :=
  scanThreadGo n pcb n 0

/-! ## cleaner.py : `Cleaner._clean_file`, `_clean_thread` (lines 119-213)

The filesystem is modelled as the list of existing paths (with an is-dir
flag).  Exceptions thrown by the OS-level operation on a path (permission
errors, locked files, ...) are injected through `Fs.raises`; when it yields
`some msg`, the operation on that path raises an exception whose `str(e)` is
`msg` and leaves the entry-level state unchanged (partial side effects of a
failed operation are not modelled — no claim depends on them).  File
contents are not modelled: the secure-overwrite passes only affect content,
so `SECURE` and `PERMANENT`/`RECYCLE_BIN` coincide at this level of
abstraction (all end in removal; `send2trash` removes the path from its
original location).  `nowEpoch` models `int(time.time())` for the
rename-disambiguation suffix. -/

inductive CleanMethod where
  | RECYCLE_BIN
  | PERMANENT
  | RENAME
  | SECURE
deriving DecidableEq

structure CleanTask where
  file_path : String
  size : ℤ
deriving DecidableEq

structure CleanResult where
  file_path : String
  size : ℤ
  success : Bool
  error : Option String
deriving DecidableEq

structure FsEntry where
  path : String
  isDir : Bool
deriving DecidableEq

structure Fs where
  entries : List FsEntry
  raises : String → Option String

/-- Model of `os.path.exists`. -/
def Fs.exists (fs : Fs) (p : String) : Bool :=
  fs.entries.any (fun e => e.path = p)

/-- Model of `os.path.isdir`. -/
def Fs.isdir (fs : Fs) (p : String) : Bool :=
  fs.entries.any (fun e => e.path = p ∧ e.isDir = true)

/-- Prefix test on the underlying character lists (model of
`str.startswith`). -/
def strHasPre (pre s : String) : Bool :=
  pre.data.isPrefixOf s.data

/-- Removal of a path and (for directories, via `shutil.rmtree`) of
everything below it. -/
def Fs.remove (fs : Fs) (p : String) : Fs :=
  { fs with entries :=
      fs.entries.filter (fun e => ¬(e.path = p ∨ strHasPre (p ++ "/") e.path = true)) }

/-- Decimal string of a nonnegative integer (used for the rename timestamp
suffix). -/
def natDigitsAux : ℕ → ℕ → List Char
  | _, 0 => []
  | 0, _ + 1 => []
  | fuel + 1, n + 1 =>
    Char.ofNat (48 + (n + 1) % 10) :: natDigitsAux fuel ((n + 1) / 10)

/-- Decimal representation of a natural number. -/
def natChars (n : ℕ) : List Char :=
  if n = 0 then ['0'] else (natDigitsAux n n).reverse

/-- Model of `os.rename(old, new)`: every path equal to `old` or below it is
re-rooted at `new`. -/
def Fs.rename (fs : Fs) (old new : String) : Fs :=
  { fs with entries := fs.entries.map (fun e =>
      if e.path = old then { e with path := new }
      else if strHasPre (old ++ "/") e.path then
        { e with path := new ++ (e.path.drop (old.length)) }
      else e) }

/-- Embedding of `Cleaner._clean_file`: check existence, then dispatch on the
method; any exception from the operation becomes a failure result carrying
`str(e)`. -/
def cleanFile (fs : Fs) (t : CleanTask) (m : CleanMethod) (nowEpoch : ℕ) :
    CleanResult × Fs :=
  if fs.exists t.file_path = false then
    ({ file_path := t.file_path, size := t.size, success := false,
       error := some ("文件不存在") }, fs)
  else
    match fs.raises t.file_path with
    | some msg =>
      ({ file_path := t.file_path, size := t.size, success := false,
         error := some msg }, fs)
    | none =>
      let fs2 :=
        match m with
        | CleanMethod.RECYCLE_BIN => fs.remove t.file_path
        | CleanMethod.PERMANENT => fs.remove t.file_path
        | CleanMethod.RENAME =>
          let bak := t.file_path ++ ".bak"
          if fs.exists bak then
            fs.rename t.file_path (t.file_path ++ "." ++ ⟨natChars nowEpoch⟩ ++ ".bak")
          else fs.rename t.file_path bak
        | CleanMethod.SECURE => fs.remove t.file_path
      ({ file_path := t.file_path, size := t.size, success := true,
         error := none }, fs2)

/-- Percent reported by `_clean_thread`:
`int((current / total) * 100) if total > 0 else 100`, with both arithmetic
steps rounded to binary64.  (Unlike the single-division forms in the
scanner, the double rounding here is observable: see the theorems on claim
C6.) -/
def pyCleanPercent (c t : ℕ) : ℤ :=
  if 0 < t then pyTrunc (fl53 (fl53 ((c : ℚ) / (t : ℚ)) * 100)) else 100

inductive CleanEv where
  | prog (cur total : ℕ) (pct : ℤ)
  | task (path : String)
deriving DecidableEq

structure CleanThreadOut where
  trace : List CleanEv
  results : List CleanResult
  completed : Bool
  running : Bool
  fs : Fs

/-- Loop of `_clean_thread`: progress fires (and may raise) before each task
is cleaned; there is no `try/finally`, so an exception skips both
`self.running = False` and the completion callback.  The abort flag is
modelled as never set. -/
def cleanThreadGo (total : ℕ) (m : CleanMethod) (nowEpoch : ℕ)
    (pcb : ℕ → ℕ → ℤ → Bool) :
    (tasks : List CleanTask) → (done : ℕ) → Fs → CleanThreadOut
  | [], _, fs => { trace := [], results := [], completed := true, running := false, fs := fs }
  | t :: rest, i, fs =>
    let c := i + 1
    let pct := pyCleanPercent c total
    if pcb c total pct then
      { trace := [CleanEv.prog c total pct], results := [],
        completed := false, running := true, fs := fs }
    else
      let rf := cleanFile fs t m nowEpoch
      let out := cleanThreadGo total m nowEpoch pcb rest c rf.2
      { trace := CleanEv.prog c total pct :: CleanEv.task t.file_path :: out.trace,
        results := rf.1 :: out.results,
        completed := out.completed, running := out.running, fs := out.fs }

/-- Embedding of `Cleaner._clean_thread`. -/
def cleanThreadModel (tasks : List CleanTask) (m : CleanMethod) (nowEpoch : ℕ)
    (pcb : ℕ → ℕ → ℤ → Bool) (fs : Fs) : CleanThreadOut :=
  cleanThreadGo tasks.length m nowEpoch pcb tasks 0 fs

/-! ## analyzer.py : `DiskItem`, `AnalyzeResult`, `Analyzer._analyze_directory`
(src/core/analyzer.py, lines 11-130 and 245-342)

The filesystem subtree below the analyzed root is the inductive value
`FSEntry` (file with `stat` size, or directory with its listing, in
`os.scandir` order).  `DiskItem.parent` is a non-owning back reference and
plays no role in any claim; it is not modelled.  `item.path` is
`directory + "/" + name` (the `/`-join performed by `os.scandir`).  The
progress callback of the analyzer only notifies (and its exceptions are
swallowed by the per-entry `except Exception` handler), so it does not
influence the tree or the aggregates and is not part of this model; the
abort flag is modelled as never set, and no permission errors occur in the
value-level filesystem. -/

inductive FSEntry where
  | file (name : String) (size : ℕ)
  | dir (name : String) (entries : List FSEntry)

inductive DiskItem where
  | mk (path name : String) (is_dir : Bool) (size : ℕ) (children : List DiskItem)

def DiskItem.path : DiskItem → String
  | DiskItem.mk p _ _ _ _ => p

def DiskItem.size : DiskItem → ℕ
  | DiskItem.mk _ _ _ s _ => s

def DiskItem.children : DiskItem → List DiskItem
  | DiskItem.mk _ _ _ _ c => c

mutual

/-- Paths of all nodes of a `DiskItem` tree. -/
def allPaths : DiskItem → List String
  | DiskItem.mk p _ _ _ children => p :: allPathsList children

/-- Paths of all nodes of a forest of `DiskItem` trees. -/
def allPathsList : List DiskItem → List String
  | [] => []
  | d :: ds => allPaths d ++ allPathsList ds

end

/-- Depth guard of `_analyze_directory`:
`max_depth is not None and current_depth > max_depth`. -/
def beyondDepth (depth : ℕ) : Option ℕ → Bool
  | some md => depth > md
  | none => false

structure AnalyzeResult where
  file_count : ℕ
  dir_count : ℕ
  total_size : ℕ
  file_types : List (String × ℕ)
  largest_files : List (String × ℕ)
  largest_dirs : List (String × ℕ)

def emptyAnalyzeResult : AnalyzeResult :=
  { file_count := 0, dir_count := 0, total_size := 0,
    file_types := [], largest_files := [], largest_dirs := [] }

/-- Update of the `defaultdict(int)` extension histogram
(`self.file_types[ext] += size`); Python dicts preserve insertion order. -/
def assocAdd (l : List (String × ℕ)) (k : String) (v : ℕ) : List (String × ℕ) :=
  if l.any (fun p => p.1 = k) then
    l.map (fun p => if p.1 = k then (p.1, p.2 + v) else p)
  else l ++ [(k, v)]

/-- Embedding of `AnalyzeResult._update_largest_files` /
`_update_largest_dirs`: append, stable sort descending by size
(`list.sort(key=..., reverse=True)`), truncate to `max_count = 20`. -/
def updateLargest (l : List (String × ℕ)) (x : String × ℕ) : List (String × ℕ) :=
  let sorted := (l ++ [x]).mergeSort (fun a b => decide (b.2 ≤ a.2))
  if 20 < sorted.length then sorted.take 20 else sorted

/-- Extension used by `AnalyzeResult.add_file`:
`ext.lower() if ext else '(无扩展名)'`. -/
def extKey (path : String) : String :=
  let ext := splitextExt path.data
  if ext = [] then ("(无扩展名)") else ⟨ext.map Char.toLower⟩

/-- Embedding of `AnalyzeResult.add_file`. -/
def addFile (r : AnalyzeResult) (path : String) (size : ℕ) : AnalyzeResult :=
  { r with
    file_count := r.file_count + 1,
    total_size := r.total_size + size,
    file_types := assocAdd r.file_types (extKey path) size,
    largest_files := updateLargest r.largest_files (path, size) }

/-- Embedding of `AnalyzeResult.add_dir`. -/
def addDir (r : AnalyzeResult) (path : String) (size : ℕ) : AnalyzeResult :=
  { r with
    dir_count := r.dir_count + 1,
    largest_dirs := updateLargest r.largest_dirs (path, size) }

mutual

/-- Embedding of `Analyzer._analyze_directory(directory, parent_item,
current_depth, max_depth)`.  Returns the children appended to the parent
item, the size assigned to it, and the updated aggregate result.  On the
early depth return the parent keeps its initial empty children and size `0`,
and `add_dir` is not called for it. -/
def analyzeDirectory (entries : List FSEntry) (dirPath : String) (depth : ℕ)
    (maxDepth : Option ℕ) (res : AnalyzeResult) :
    List DiskItem × ℕ × AnalyzeResult :=
  if beyondDepth depth maxDepth then
    ([], 0, res)
  else
    let out := analyzeEntries entries dirPath depth maxDepth res
    (out.1, out.2.1, addDir out.2.2 dirPath out.2.1)

/-- Loop body of `_analyze_directory` over the `os.scandir` listing:
accumulates `dir_size`, creates one `DiskItem` per entry, recurses into
subdirectories at `current_depth + 1`. -/
def analyzeEntries (entries : List FSEntry) (dirPath : String) (depth : ℕ)
    (maxDepth : Option ℕ) (res : AnalyzeResult) :
    List DiskItem × ℕ × AnalyzeResult :=
  match entries with
  | [] => ([], 0, res)
  | FSEntry.file name sz :: rest =>
    let childPath := dirPath ++ "/" ++ name
    let child := DiskItem.mk childPath name false sz []
    let res1 := addFile res childPath sz
    let out := analyzeEntries rest dirPath depth maxDepth res1
    (child :: out.1, sz + out.2.1, out.2.2)
  | FSEntry.dir name sub :: rest =>
    let childPath := dirPath ++ "/" ++ name
    let subOut := analyzeDirectory sub childPath (depth + 1) maxDepth res
    let child := DiskItem.mk childPath name true subOut.2.1 subOut.1
    let out := analyzeEntries rest dirPath depth maxDepth subOut.2.2
    (child :: out.1, subOut.2.1 + out.2.1, out.2.2)

end

/-- Embedding of the directory branch of `Analyzer._analyze_thread`: build
the root `DiskItem` (name `os.path.basename(path) or path`) and run
`_analyze_directory(path, root_item, 0, max_depth)`. -/
def analyzeRun (rootPath : String) (rootEntries : List FSEntry)
    (maxDepth : Option ℕ) : DiskItem × AnalyzeResult :=
  let base := lastComponent rootPath.data
  let rootName : String := if base = [] then rootPath else ⟨base⟩
  let out := analyzeDirectory rootEntries rootPath 0 maxDepth emptyAnalyzeResult
  (DiskItem.mk rootPath rootName true out.2.1 out.1, out.2.2)

/-! ## size_utils.py : `SizeUtils.bytes_to_human_readable` /
`SizeUtils.human_readable_to_bytes` (src/utils/size_utils.py, lines 17-111)

Strings are modelled as `List Char`.  `float(size_in_bytes)` is `fl53`;
the loop divisions by 1024 are exact in binary64 and are modelled as exact
rational divisions.  `"{:.Nf}".format(x)` correctly rounds the binary64
value to `N` decimals with ties to even, i.e. renders `rhe (x * 10 ^ N)`.
`float(numeric_literal)` correctly rounds the decimal value to binary64
(`fl53`); the model of `float()` accepts exactly the strings of digits and
dots that the call sites can produce (`[\d.]+` matches, and the whole-string
fallback when it consists of digits and dots) — the sign/exponent/infinity
forms accepted by Python never reach `float()` here, because any such string
contains a character that already fails the earlier tests.  `str.strip()` /
`\s` are modelled on the ASCII whitespace characters. -/

def pyIsSpace (c : Char) : Bool :=
  c = ' ' ∨ c = '\t' ∨ c = '\n' ∨ c = '\r' ∨ c = '\x0b' ∨ c = '\x0c'

def isDigitDot (c : Char) : Bool :=
  c.isDigit || c = '.'

/-- Model of `str.strip()` (no arguments: strip whitespace on both sides). -/
def stripChars (l : List Char) : List Char :=
  ((l.dropWhile pyIsSpace).reverse.dropWhile pyIsSpace).reverse

/-- Model of `str.rstrip(s)` for a one-character set `s`. -/
def rstripChar (l : List Char) (c : Char) : List Char :=
  (l.reverse.dropWhile (fun x => x = c)).reverse

/-- Numeric value of a digit string (certainly digits; used beneath the
guards that established this). -/
def natVal (l : List Char) : ℕ :=
  l.foldl (fun acc c => 10 * acc + (c.toNat - 48)) 0

/-- Split a char list at every dot. -/
def splitDots : List Char → List (List Char)
  | [] => [[]]
  | c :: rest =>
    if c = '.' then [] :: splitDots rest
    else
      match splitDots rest with
      | [] => [[c]]
      | p :: ps => (c :: p) :: ps

/-- Exact decimal value of a digits-and-dots literal, `none` when Python
`float()` would raise `ValueError` (no digits at all, or several dots). -/
def parseDec (l : List Char) : Option ℚ :=
  match splitDots l with
  | [a] => if a = [] then none else some ((natVal a : ℚ))
  | [a, b] =>
    if a = [] ∧ b = [] then none
    else some ((natVal a : ℚ) + (natVal b : ℚ) / 10 ^ b.length)
  | _ => none

/-- The `units` list of `bytes_to_human_readable`. -/
def UNITS : List (List Char) :=
  [['B'], ['K', 'B'], ['M', 'B'], ['G', 'B'], ['T', 'B'], ['P', 'B']]

/-- While loop of `bytes_to_human_readable`
(`while size >= 1024 and unit_index < len(units) - 1`): the fuel argument
is `5 - unit_index`, so the `unit_index < 5` conjunct is the fuel check. -/
def hrLoopAux : ℕ → ℚ → ℕ → ℚ × ℕ
  | 0, size, idx => (size, idx)
  | fuel + 1, size, idx =>
    if 1024 ≤ size then hrLoopAux fuel (size / 1024) (idx + 1) else (size, idx)

/-- Rendering of `"{:.Nf}".format(x)` for a positive binary64 value `x`:
the correctly-rounded (ties to even) decimal with `N` fractional digits. -/
def formatFixed (q : ℚ) (dp : ℕ) : List Char :=
  let n := (rhe (q * 10 ^ dp)).toNat
  if dp = 0 then natChars n
  else
    natChars (n / 10 ^ dp) ++
      '.' :: (List.replicate (dp - (natChars (n % 10 ^ dp)).length) '0' ++
        natChars (n % 10 ^ dp))

/-- Embedding of `SizeUtils.bytes_to_human_readable`. -/
def bytesToHumanReadable (s : ℤ) (dp : ℕ) : List Char :=
  if s < 0 then ("未知大小").data
  else if s = 0 then ['0', ' ', 'B']
  else
    let p := hrLoopAux 5 (fl53 (s : ℚ)) 0
    let unit := UNITS.getD p.2 []
    if p.2 = 0 then natChars (pyTrunc p.1).toNat ++ ' ' :: unit
    else
      let res := formatFixed p.1 dp ++ ' ' :: unit
      if res.contains '.' then
        rstripChar (rstripChar res '0') '.' ++ ' ' :: unit
      else res

/-- The unit dictionary of `human_readable_to_bytes`; note the absence of
any petabyte entry. -/
def unitTable : List (List Char × ℕ) :=
  [(['B'], 1), (['B','Y','T','E'], 1), (['B','Y','T','E','S'], 1),
   (['K'], 1024), (['K','B'], 1024), (['K','I','B'], 1024),
   (['M'], 1024 ^ 2), (['M','B'], 1024 ^ 2), (['M','I','B'], 1024 ^ 2),
   (['G'], 1024 ^ 3), (['G','B'], 1024 ^ 3), (['G','I','B'], 1024 ^ 3),
   (['T'], 1024 ^ 4), (['T','B'], 1024 ^ 4), (['T','I','B'], 1024 ^ 4)]

def lookupUnit (u : List Char) : Option ℕ :=
  (unitTable.find? (fun p => p.1 = u)).map (fun p => p.2)

/-- Embedding of `SizeUtils.human_readable_to_bytes`.  The regular
expression `([\d.]+)\s*([A-Za-z]+)` anchored at the start is modelled by the
greedy decomposition digits-and-dots / whitespace / letters; backtracking
into a shorter first group can never produce a match this greedy
decomposition misses, because the character that stopped the letter group
is neither a letter nor removable by `\s*`. -/
def humanReadableToBytes (s : List Char) : ℤ :=
  let l := (stripChars s).map Char.toUpper
  if l = [] then 0
  else
    let num := l.takeWhile isDigitDot
    let rest2 := (l.dropWhile isDigitDot).dropWhile pyIsSpace
    let unitChars := rest2.takeWhile (fun c => c.isAlpha)
    if num ≠ [] ∧ unitChars ≠ [] then
      match parseDec num with
      | none => 0
      | some v =>
        match lookupUnit unitChars with
        | some u => pyTrunc (fl53 (fl53 v * (u : ℚ)))
        | none => pyTrunc (fl53 v)
    else
      if l.all isDigitDot then
        match parseDec l with
        | none => 0
        | some v => pyTrunc (fl53 v)
      else 0

/-! ## Theorems for claims C9, C10, C4, C2, C5 -/

/-- C9: calling `remove_target` with an out-of-range index (negative, or at
least the number of targets) leaves the target list completely unchanged and
raises no exception (the result is always `some`); an index in range removes
exactly the target at that position. -/
theorem C9_removeTarget_spec {α : Type} (l : List α) (i : ℤ) :
    removeTarget l i =
      some (if 0 ≤ i ∧ i < (l.length : ℤ) then
        l.take i.toNat ++ l.drop (i.toNat + 1) else l) := by
  unfold removeTarget pyDelAt
  by_cases h : 0 ≤ i ∧ i < (l.length : ℤ)
  · rw [if_pos h, if_pos h]
    have hneg : ¬ i < 0 := by omega
    simp only [hneg, if_false, if_pos h]
    rw [List.eraseIdx_eq_take_drop_succ]
  · rw [if_neg h, if_neg h]

/-- C10: a global `ScanFilter` whose `max_size` is `0` applies no upper size
bound (it behaves exactly like one with `max_size = None`), one whose
`min_age_days` is `0` applies no age bound (like `min_age_days = None`), and
with both zero (and the other rule fields at their defaults) every file
passes `match_file`. -/
theorem C10_zero_bounds_unset :
    (∀ (f : ScanFilter) (path : String) (size mt now : ℤ),
      ScanFilter.matchFile { f with max_size := some 0 } path size mt now =
        ScanFilter.matchFile { f with max_size := none } path size mt now) ∧
    (∀ (f : ScanFilter) (path : String) (size mt now : ℤ),
      ScanFilter.matchFile { f with min_age_days := some 0 } path size mt now =
        ScanFilter.matchFile { f with min_age_days := none } path size mt now) ∧
    (∀ (path : String) (size mt now : ℤ),
      ScanFilter.matchFile
        { min_size := 0, max_size := some 0, min_age_days := some 0,
          extensions := [], exclude_exts := [] } path size mt now = true) := by
  refine ⟨?_, ?_, ?_⟩ <;> intros <;>
    simp [ScanFilter.matchFile, truthyOptInt]

/-- C4 counterexample: `Analyzer.analyze_disk` does not return a started
boolean — on a fresh (idle) analyzer the call starts the background analysis
but evaluates to `None` (modelled `none`), not `True`, contradicting the
claim that every such call returns a boolean that is true when the task was
started. -/
theorem C4_counterexample :
    ¬ ((analyzeDiskStart { is_analyzing := false, aborted := false }).2 = some true) := by
  decide

/-- C4 (amended): `Scanner.scan` and `Cleaner.clean` return the started
boolean (`false` exactly when that operation is already running, `true` when
the background task was started); `Analyzer.analyze_disk` also rejects a
concurrent call (leaving its state untouched) but signals nothing, returning
`None` on both paths. -/
theorem C4_run_guard (s : ScannerState) (c : CleanerState) (a : AnalyzerState)
    (b : Bool) :
    (scanStart s).2 = !s.running ∧
    (cleanStart c).2 = !c.running ∧
    (analyzeDiskStart a).2 = none ∧
    (analyzeDiskStart { is_analyzing := true, aborted := b }).1 =
      { is_analyzing := true, aborted := b } := by
  obtain ⟨sr, sa⟩ := s
  obtain ⟨cr, ca⟩ := c
  obtain ⟨ar, aa⟩ := a
  refine ⟨?_, ?_, ?_, ?_⟩ <;> cases sr <;> cases cr <;> cases ar <;>
    simp [scanStart, cleanStart, analyzeDiskStart]

/-- C2: the claim is right about the intended design (and the analyzer's
thread does wrap its body in `try/finally`), but `Scanner._scan_thread` has
no such guard: when the caller's progress callback raises at its very first
invocation during a scan of one enabled target, the thread dies, the
completion callback never fires, and the run flag stays `True` forever.
This theorem evaluates the embedded thread at that failing input. -/
theorem C2_scan_thread_stranded :
    scanThreadModel 1 (fun _ _ _ => true) =
      { trace := [ScanEv.prog 0 1 50], completed := false, running := true } := by
  decide

/-- C5 counterexample: with a single enabled target the first progress
invocation reports target index `0` with percent `50`
(`int((1 - 0.5) * 100 / 1)`), not `round(0 * 100 / 1) = 0`; so the percent
argument is not `round(currentIndex * 100 / n)` for the reported index.
(`(200 * c + t) / (2 * t)` is `round(c * 100 / t)` as a natural-number
formula; no half-way ties occur at the refuting event.) -/
theorem C5_counterexample :
    ¬ ((scanThreadModel 1 (fun _ _ _ => false)).trace.all
        (fun ev => match ev with
          | ScanEv.prog c t p => decide (p = (200 * c + t) / (2 * t))
          | ScanEv.walk _ => true) = true) := by
  decide

/-- Closed form of the scan loop when no callback raises. -/
theorem scanThreadGo_noRaise (total : ℕ) (r : ℕ) :
    ∀ (cur : ℕ),
      scanThreadGo total (fun _ _ _ => false) r cur =
        { trace := (List.range r).flatMap (fun i =>
            [ScanEv.prog (cur + i) total ((100 * (cur + i + 1) - 50) / total),
             ScanEv.walk (cur + i + 1),
             ScanEv.prog (cur + i + 1) total ((100 * (cur + i + 1)) / total)]),
          completed := true, running := false } := by
  induction r with
  | zero => intro cur; rfl
  | succ r ih =>
    intro cur
    rw [scanThreadGo, ih (cur + 1), List.range_succ_eq_map, List.flatMap_cons,
      List.flatMap_map]
    simp only [ScanThreadOut.mk.injEq, Nat.add_zero, Nat.add_sub_cancel,
      Bool.false_eq_true, if_false, List.cons_append, List.nil_append,
      Nat.succ_eq_add_one, and_true]
    have h1 : ∀ i : ℕ, cur + 1 + i = cur + (i + 1) := fun i => by omega
    simp only [h1]

/-- C5 (amended): during a scan over `n` enabled targets (with a
non-raising progress callback and no abort), the progress callback fires
exactly once before and once after each target's walk; the before event for
target `current` (1-based) reports index `current - 1` with percent
`int((current - 0.5) * 100 / n)`, i.e. the truncation
`(100 * current - 50) / n`, and the after event reports `current` with the
truncation `(100 * current) / n` — truncation, not `round`, and the
before-percent is taken at the half-target midpoint rather than at the
reported index. -/
theorem C5_progress_trace (n : ℕ) :
    (scanThreadModel n (fun _ _ _ => false)).trace =
      (List.range n).flatMap (fun i =>
        [ScanEv.prog i n ((100 * (i + 1) - 50) / n),
         ScanEv.walk (i + 1),
         ScanEv.prog (i + 1) n ((100 * (i + 1)) / n)]) ∧
    (scanThreadModel n (fun _ _ _ => false)).completed = true ∧
    (scanThreadModel n (fun _ _ _ => false)).running = false := by
  unfold scanThreadModel
  rw [scanThreadGo_noRaise n n 0]
  simp

/-! ## Theorems for claim C8 -/

/-- An update of an `AnalyzeResult`: one `add_file` or `add_dir` call. -/
inductive AnalyzeOp where
  | file (path : String) (size : ℕ)
  | dir (path : String) (size : ℕ)

def applyOp (r : AnalyzeResult) : AnalyzeOp → AnalyzeResult
  | AnalyzeOp.file p s => addFile r p s
  | AnalyzeOp.dir p s => addDir r p s

theorem updateLargest_length (l : List (String × ℕ)) (x : String × ℕ) :
    (updateLargest l x).length ≤ 20 := by
  unfold updateLargest
  dsimp only
  split
  · simp [List.length_take]
  · rename_i h
    omega

theorem updateLargest_sorted (l : List (String × ℕ)) (x : String × ℕ) :
    (updateLargest l x).Pairwise (fun a b : String × ℕ => b.2 ≤ a.2) := by
  have hs : ((l ++ [x]).mergeSort (fun a b : String × ℕ => decide (b.2 ≤ a.2))).Pairwise
      (fun a b : String × ℕ => (decide (b.2 ≤ a.2)) = true) := by
    apply List.sorted_mergeSort
    · intro a b c hab hbc
      simp only [decide_eq_true_eq] at *
      omega
    · intro a b
      simp only [Bool.or_eq_true, decide_eq_true_eq]
      omega
  have hs2 : ((l ++ [x]).mergeSort (fun a b : String × ℕ => decide (b.2 ≤ a.2))).Pairwise
      (fun a b : String × ℕ => b.2 ≤ a.2) := by
    exact hs.imp (fun h => by simpa using h)
  unfold updateLargest
  dsimp only
  split
  · exact List.Pairwise.sublist (List.take_sublist _ _) hs2
  · exact hs2

/-- C8: after every update of an `AnalyzeResult` (any sequence of `add_file`
and `add_dir` calls starting from a fresh result), the largest-files list
and the largest-dirs list each contain at most 20 entries and are sorted in
descending order by size. -/
theorem C8_largest_lists_invariant (ops : List AnalyzeOp) :
    ((ops.foldl applyOp emptyAnalyzeResult).largest_files.length ≤ 20 ∧
      (ops.foldl applyOp emptyAnalyzeResult).largest_files.Pairwise
        (fun a b : String × ℕ => b.2 ≤ a.2)) ∧
    ((ops.foldl applyOp emptyAnalyzeResult).largest_dirs.length ≤ 20 ∧
      (ops.foldl applyOp emptyAnalyzeResult).largest_dirs.Pairwise
        (fun a b : String × ℕ => b.2 ≤ a.2)) := by
  have key : ∀ (ops : List AnalyzeOp) (acc : AnalyzeResult),
      (acc.largest_files.length ≤ 20 ∧ acc.largest_files.Pairwise
        (fun a b : String × ℕ => b.2 ≤ a.2)) →
      (acc.largest_dirs.length ≤ 20 ∧ acc.largest_dirs.Pairwise
        (fun a b : String × ℕ => b.2 ≤ a.2)) →
      (((ops.foldl applyOp acc).largest_files.length ≤ 20 ∧
        (ops.foldl applyOp acc).largest_files.Pairwise
          (fun a b : String × ℕ => b.2 ≤ a.2)) ∧
       ((ops.foldl applyOp acc).largest_dirs.length ≤ 20 ∧
        (ops.foldl applyOp acc).largest_dirs.Pairwise
          (fun a b : String × ℕ => b.2 ≤ a.2))) := by
    intro ops
    induction ops with
    | nil => intro acc h1 h2; exact ⟨h1, h2⟩
    | cons op rest ih =>
      intro acc h1 h2
      rw [List.foldl_cons]
      cases op with
      | file p s =>
        exact ih (addFile acc p s)
          ⟨updateLargest_length _ _, updateLargest_sorted _ _⟩ h2
      | dir p s =>
        exact ih (addDir acc p s) h1
          ⟨updateLargest_length _ _, updateLargest_sorted _ _⟩
  exact key ops emptyAnalyzeResult
    (by simp [emptyAnalyzeResult]) (by simp [emptyAnalyzeResult])

/-! ## Theorems for claim C1 -/

/-- The end-to-end scenario C tree: `root/sub1/sub2/file.txt`. -/
def c1Tree : List FSEntry :=
  [FSEntry.dir ("sub1") [FSEntry.dir ("sub2") [FSEntry.file ("file.txt") 100]]]

/-- Evaluation of the analyzer on scenario C with `maxDepth = 1`. -/
theorem c1_tree_eval :
    (analyzeRun ("root") c1Tree (some 1)).1 =
      DiskItem.mk ("root") ("root") true 0
        [DiskItem.mk ("root/sub1") ("sub1") true 0
          [DiskItem.mk ("root/sub1/sub2") ("sub2") true 0 []]] := by
  simp [analyzeRun, analyzeDirectory, analyzeEntries, beyondDepth, c1Tree,
    lastComponent]

/-- C1 counterexample: analyzing `root/sub1/sub2/file.txt` with
`maxDepth = 1`, the directory `sub2` **does** appear as a `DiskItem` node
(as a size-0 child of `sub1`), because `_analyze_directory` creates and
attaches the child `DiskItem` before the recursive call performs the depth
check; this refutes the claim that `sub2` never appears as a node. -/
theorem C1_counterexample :
    ("root/sub1/sub2" : String) ∈ allPaths (analyzeRun ("root") c1Tree (some 1)).1 := by
  rw [c1_tree_eval]
  simp [allPaths, allPathsList]

/-- C1 (amended): with `maxDepth = 1`, directories up to one level beyond
the bound are still added as `DiskItem` nodes, but nothing below them is
traversed: the resulting tree is exactly
`root (size 0) → sub1 (size 0) → sub2 (size 0, no children)`;
`file.txt` never appears as a node, `sub1` has size 0, and the aggregates
record 0 files, 2 visited directories (`sub1` and `root`; the untraversed
`sub2` is not counted by `add_dir`) and total size 0. -/
theorem C1_depth_bound_tree :
    (analyzeRun ("root") c1Tree (some 1)).1 =
      DiskItem.mk ("root") ("root") true 0
        [DiskItem.mk ("root/sub1") ("sub1") true 0
          [DiskItem.mk ("root/sub1/sub2") ("sub2") true 0 []]] ∧
    ("root/sub1/sub2/file.txt" : String) ∉
      allPaths (analyzeRun ("root") c1Tree (some 1)).1 ∧
    (analyzeRun ("root") c1Tree (some 1)).2.file_count = 0 ∧
    (analyzeRun ("root") c1Tree (some 1)).2.dir_count = 2 ∧
    (analyzeRun ("root") c1Tree (some 1)).2.total_size = 0 := by
  refine ⟨c1_tree_eval, ?_, ?_, ?_, ?_⟩
  · rw [c1_tree_eval]
    simp [allPaths, allPathsList]
  · simp [analyzeRun, analyzeDirectory, analyzeEntries, beyondDepth, c1Tree,
      addDir, emptyAnalyzeResult]
  · simp [analyzeRun, analyzeDirectory, analyzeEntries, beyondDepth, c1Tree,
      addDir, emptyAnalyzeResult]
  · simp [analyzeRun, analyzeDirectory, analyzeEntries, beyondDepth, c1Tree,
      addDir, emptyAnalyzeResult]

/-! ## Theorems for claims C7 and C6 -/

/-- Batch length is preserved when no callback raises: one result per task,
regardless of per-task failures (a failing task never stops the batch). -/
theorem cleanThreadGo_results_length (total : ℕ) (m : CleanMethod) (now : ℕ) :
    ∀ (tasks : List CleanTask) (i : ℕ) (fs : Fs),
      ((cleanThreadGo total m now (fun _ _ _ => false) tasks i fs).results).length
        = tasks.length := by
  intro tasks
  induction tasks with
  | nil => intro i fs; rfl
  | cons t rest ih =>
    intro i fs
    rw [cleanThreadGo]
    simp only [Bool.false_eq_true, if_false, List.length_cons]
    rw [ih]

/-- Closed form of the clean loop's event trace when no callback raises:
the progress callback fires once per task, before the task is processed,
with the 1-based index and `pyCleanPercent`. -/
theorem cleanThreadGo_trace (total : ℕ) (m : CleanMethod) (now : ℕ) :
    ∀ (tasks : List CleanTask) (i : ℕ) (fs : Fs),
      (cleanThreadGo total m now (fun _ _ _ => false) tasks i fs).trace =
        (List.enumFrom (i + 1) tasks).flatMap (fun p =>
          [CleanEv.prog p.1 total (pyCleanPercent p.1 total),
           CleanEv.task p.2.file_path]) ∧
      (cleanThreadGo total m now (fun _ _ _ => false) tasks i fs).completed = true ∧
      (cleanThreadGo total m now (fun _ _ _ => false) tasks i fs).running = false := by
  intro tasks
  induction tasks with
  | nil => intro i fs; exact ⟨rfl, rfl, rfl⟩
  | cons t rest ih =>
    intro i fs
    rw [cleanThreadGo]
    simp only [Bool.false_eq_true, if_false, List.enumFrom_cons, List.flatMap_cons]
    refine ⟨?_, (ih _ _).2⟩
    rw [(ih (i + 1) (cleanFile fs t m now).2).1]
    rfl

def c7Fs : Fs :=
  { entries := [{ path := "a", isDir := false }, { path := "c", isDir := false }],
    raises := fun _ => none }

def c7Tasks : List CleanTask :=
  [{ file_path := "a", size := 10 }, { file_path := "b", size := 20 },
   { file_path := "c", size := 30 }]

/-- C7: in every clean batch, a task whose path does not exist yields a
failure result carrying the "文件不存在" (file not found) message and leaves
the filesystem untouched; a task whose operation raises yields a failure
carrying the exception's message; every other task yields a success result;
and a failing task never stops the batch (one result per task).  Cleaning
three `PERMANENT` tasks whose second file was removed beforehand yields
`[success, failure("文件不存在"), success]`. -/
theorem C7_per_task_outcomes :
    (∀ (tasks : List CleanTask) (m : CleanMethod) (now : ℕ) (fs : Fs),
      ((cleanThreadModel tasks m now (fun _ _ _ => false) fs).results).length
        = tasks.length) ∧
    (∀ (fs : Fs) (t : CleanTask) (m : CleanMethod) (now : ℕ),
      fs.exists t.file_path = false →
        (cleanFile fs t m now).1 =
          { file_path := t.file_path, size := t.size, success := false,
            error := some ("文件不存在") } ∧
        (cleanFile fs t m now).2 = fs) ∧
    (∀ (fs : Fs) (t : CleanTask) (m : CleanMethod) (now : ℕ) (msg : String),
      fs.exists t.file_path = true → fs.raises t.file_path = some msg →
        (cleanFile fs t m now).1.success = false ∧
        (cleanFile fs t m now).1.error = some msg) ∧
    (∀ (fs : Fs) (t : CleanTask) (m : CleanMethod) (now : ℕ),
      fs.exists t.file_path = true → fs.raises t.file_path = none →
        (cleanFile fs t m now).1.success = true ∧
        (cleanFile fs t m now).1.error = none) ∧
    ((cleanThreadModel c7Tasks CleanMethod.PERMANENT 0 (fun _ _ _ => false)
        c7Fs).results.map (fun r => (r.success, r.error)) =
      [(true, none), (false, some ("文件不存在")), (true, none)]) := by
  refine ⟨?_, ?_, ?_, ?_, ?_⟩
  · intro tasks m now fs
    exact cleanThreadGo_results_length tasks.length m now tasks 0 fs
  · intro fs t m now h
    unfold cleanFile
    rw [h]
    exact ⟨rfl, rfl⟩
  · intro fs t m now msg h hr
    unfold cleanFile
    rw [h, hr]
    exact ⟨rfl, rfl⟩
  · intro fs t m now h hr
    unfold cleanFile
    rw [h, hr]
    exact ⟨rfl, rfl⟩
  · simp [cleanThreadModel, cleanThreadGo, cleanFile, Fs.exists, Fs.remove,
      strHasPre, c7Fs, c7Tasks]

def c7wEmpty : Fs := { entries := [], raises := fun _ => none }

def c7wLocked : Fs :=
  { entries := [{ path := "y", isDir := false }],
    raises := fun p => if p = "y" then some ("locked") else none }

def c7wPlain : Fs :=
  { entries := [{ path := "z", isDir := false }], raises := fun _ => none }

/-- Witness for C7 at concrete inputs. -/
theorem C7_witness :
    ((cleanThreadModel [{ file_path := "x", size := 1 }] CleanMethod.PERMANENT 0
        (fun _ _ _ => false) c7wEmpty).results).length = 1 ∧
    (cleanFile c7wEmpty { file_path := "x", size := 1 }
        CleanMethod.PERMANENT 0).1 =
      { file_path := "x", size := 1, success := false,
        error := some ("文件不存在") } ∧
    (cleanFile c7wLocked { file_path := "y", size := 2 }
        CleanMethod.PERMANENT 0).1.error = some ("locked") ∧
    (cleanFile c7wPlain { file_path := "z", size := 3 }
        CleanMethod.PERMANENT 0).1.success = true :=
  ⟨C7_per_task_outcomes.1 _ _ _ _,
   (C7_per_task_outcomes.2.1 _ _ _ _ (by rfl)).1,
   (C7_per_task_outcomes.2.2.1 _ _ _ _ ("locked") (by rfl) (by rfl)).2,
   (C7_per_task_outcomes.2.2.2.1 _ _ _ _ (by rfl) (by rfl)).1⟩

/-- Binary64 value of `1/3`. -/
theorem fl53_one_third :
    fl53 ((1:ℚ)/3) = (6004799503160661 : ℚ) * 2 ^ ((-54):ℤ) := by
  have h := fl53_eval (q := (1:ℚ)/3) (e := -2) (m := 6004799503160661)
    (by norm_num) (by norm_num)
    (by
      apply rhe_eq_of
      · norm_num
      · norm_num)
  convert h using 2

/-- Binary64 value of `float(1/3) * 100`. -/
theorem fl53_one_third_x100 :
    fl53 ((6004799503160661 : ℚ) * 2 ^ ((-54):ℤ) * 100) =
      (4691249611844266 : ℚ) * 2 ^ ((-47):ℤ) := by
  have h := fl53_eval (q := (6004799503160661 : ℚ) * 2 ^ ((-54):ℤ) * 100) (e := 5)
    (m := 4691249611844266) (by norm_num) (by norm_num)
    (by
      apply rhe_eq_of
      · norm_num
      · norm_num)
  convert h using 2

theorem pyCleanPercent_1_3 : pyCleanPercent 1 3 = 33 := by
  unfold pyCleanPercent
  rw [if_pos (by norm_num)]
  have hc : ((1:ℕ):ℚ) / ((3:ℕ):ℚ) = (1:ℚ)/3 := by norm_num
  rw [hc, fl53_one_third, fl53_one_third_x100, pyTrunc_of_nonneg (by positivity)]
  apply floor_eval
  · norm_num
  · norm_num

/-- Binary64 value of `2/3`. -/
theorem fl53_two_thirds :
    fl53 ((2:ℚ)/3) = (6004799503160661 : ℚ) * 2 ^ ((-53):ℤ) := by
  have h := fl53_eval (q := (2:ℚ)/3) (e := -1) (m := 6004799503160661)
    (by norm_num) (by norm_num)
    (by
      apply rhe_eq_of
      · norm_num
      · norm_num)
  convert h using 2

/-- Binary64 value of `float(2/3) * 100`. -/
theorem fl53_two_thirds_x100 :
    fl53 ((6004799503160661 : ℚ) * 2 ^ ((-53):ℤ) * 100) =
      (4691249611844266 : ℚ) * 2 ^ ((-46):ℤ) := by
  have h := fl53_eval (q := (6004799503160661 : ℚ) * 2 ^ ((-53):ℤ) * 100) (e := 6)
    (m := 4691249611844266) (by norm_num) (by norm_num)
    (by
      apply rhe_eq_of
      · norm_num
      · norm_num)
  convert h using 2

theorem pyCleanPercent_2_3 : pyCleanPercent 2 3 = 66 := by
  unfold pyCleanPercent
  rw [if_pos (by norm_num)]
  have hc : ((2:ℕ):ℚ) / ((3:ℕ):ℚ) = (2:ℚ)/3 := by norm_num
  rw [hc, fl53_two_thirds, fl53_two_thirds_x100, pyTrunc_of_nonneg (by positivity)]
  apply floor_eval
  · norm_num
  · norm_num

theorem fl53_one : fl53 (1:ℚ) = 1 := by
  have h := fl53_dyadic (m := 1) (j := 0) (by norm_num) (by norm_num)
  norm_num at h
  exact h

theorem fl53_hundred : fl53 (100:ℚ) = 100 := by
  have h := fl53_dyadic (m := 25) (j := 2) (by norm_num) (by norm_num)
  norm_num at h
  exact h

theorem pyCleanPercent_3_3 : pyCleanPercent 3 3 = 100 := by
  unfold pyCleanPercent
  rw [if_pos (by norm_num)]
  have hc : ((3:ℕ):ℚ) / ((3:ℕ):ℚ) = (1:ℚ) := by norm_num
  rw [hc, fl53_one, one_mul, fl53_hundred, pyTrunc_of_nonneg (by positivity)]
  apply floor_eval
  · norm_num
  · norm_num

/-- Binary64 value of `29/50`. -/
theorem fl53_29_50 :
    fl53 ((29:ℚ)/50) = (5224175567749775 : ℚ) * 2 ^ ((-53):ℤ) := by
  have h := fl53_eval (q := (29:ℚ)/50) (e := -1) (m := 5224175567749775)
    (by norm_num) (by norm_num)
    (by
      apply rhe_eq_of
      · norm_num
      · norm_num)
  convert h using 2

/-- Binary64 value of `float(29/50) * 100`: strictly below 58. -/
theorem fl53_29_50_x100 :
    fl53 ((5224175567749775 : ℚ) * 2 ^ ((-53):ℤ) * 100) =
      (8162774324609023 : ℚ) * 2 ^ ((-47):ℤ) := by
  have h := fl53_eval (q := (5224175567749775 : ℚ) * 2 ^ ((-53):ℤ) * 100) (e := 5)
    (m := 8162774324609023) (by norm_num) (by norm_num)
    (by
      apply rhe_eq_of
      · norm_num
      · norm_num)
  convert h using 2

theorem pyCleanPercent_29_50 : pyCleanPercent 29 50 = 57 := by
  unfold pyCleanPercent
  rw [if_pos (by norm_num)]
  have hc : ((29:ℕ):ℚ) / ((50:ℕ):ℚ) = (29:ℚ)/50 := by norm_num
  rw [hc, fl53_29_50, fl53_29_50_x100, pyTrunc_of_nonneg (by positivity)]
  apply floor_eval
  · norm_num
  · norm_num

/-- Trace of the concrete three-task clean run. -/
theorem c6_trace_eval :
    (cleanThreadModel c7Tasks CleanMethod.PERMANENT 0 (fun _ _ _ => false)
        c7Fs).trace =
      [CleanEv.prog 1 3 33, CleanEv.task ("a"), CleanEv.prog 2 3 66,
       CleanEv.task ("b"), CleanEv.prog 3 3 100, CleanEv.task ("c")] := by
  have h := (cleanThreadGo_trace 3 CleanMethod.PERMANENT 0 c7Tasks 0 c7Fs).1
  have hlen : c7Tasks.length = 3 := by rfl
  unfold cleanThreadModel
  rw [hlen, h]
  simp [c7Tasks, List.enumFrom_cons, pyCleanPercent_1_3, pyCleanPercent_2_3,
    pyCleanPercent_3_3]

/-- C6 counterexample: in a clean over three tasks, the second progress
invocation carries percent `66 = int((2/3)*100)`, not
`round(2*100/3) = 67` (`(200*c + t)/(2*t)` computes that rounding), and the
very first event of the run is a progress invocation, not a task — progress
fires before, not after, each task. -/
theorem C6_counterexample :
    (¬ ∀ pct : ℤ, CleanEv.prog 2 3 pct ∈
        (cleanThreadModel c7Tasks CleanMethod.PERMANENT 0 (fun _ _ _ => false)
          c7Fs).trace → pct = (200 * 2 + 3) / (2 * 3)) ∧
    ((cleanThreadModel c7Tasks CleanMethod.PERMANENT 0 (fun _ _ _ => false)
        c7Fs).trace.head? ≠ some (CleanEv.task ("a"))) := by
  rw [c6_trace_eval]
  constructor
  · push_neg
    refine ⟨66, by simp, by norm_num⟩
  · simp

/-- C6 (amended): during a clean over `tasks` (no abort, non-raising
callback), the progress callback fires exactly once per task, **before** the
task is processed, with the 1-based index and
`percent = int((current / total) * 100)` evaluated in binary64
(`pyCleanPercent`); with `total = 0` the loop body never runs, so no
progress fires at all (the `else 100` branch is dead).  The percent is a
truncation, not `round` (66 at current 2 of 3), and the double binary64
rounding can even drop it one below the exact floor: 57 at current 29 of 50,
where the exact value is 58. -/
theorem C6_progress_semantics :
    (∀ (tasks : List CleanTask) (m : CleanMethod) (now : ℕ) (fs : Fs),
      (cleanThreadModel tasks m now (fun _ _ _ => false) fs).trace =
        (List.enumFrom 1 tasks).flatMap (fun p =>
          [CleanEv.prog p.1 tasks.length (pyCleanPercent p.1 tasks.length),
           CleanEv.task p.2.file_path])) ∧
    pyCleanPercent 2 3 = 66 ∧
    pyCleanPercent 29 50 = 57 ∧
    ((29 * 100 : ℤ) / 50 = 58) := by
  refine ⟨?_, pyCleanPercent_2_3, pyCleanPercent_29_50, by norm_num⟩
  intro tasks m now fs
  exact (cleanThreadGo_trace tasks.length m now tasks 0 fs).1

/-! ## Toolbox for claim C3: digit strings -/

theorem digitChar_toNat {d : ℕ} (h : d < 10) :
    (Char.ofNat (48 + d)).toNat - 48 = d := by
  interval_cases d <;> decide

theorem digitChar_isDigitDot {d : ℕ} (h : d < 10) :
    isDigitDot (Char.ofNat (48 + d)) = true := by
  interval_cases d <;> decide

theorem digitChar_ne_dot {d : ℕ} (h : d < 10) :
    Char.ofNat (48 + d) ≠ '.' := by
  interval_cases d <;> decide

theorem digitChar_toUpper {d : ℕ} (h : d < 10) :
    Char.toUpper (Char.ofNat (48 + d)) = Char.ofNat (48 + d) := by
  interval_cases d <;> decide

theorem digitChar_not_space {d : ℕ} (h : d < 10) :
    pyIsSpace (Char.ofNat (48 + d)) = false := by
  interval_cases d <;> decide

theorem digitChar_not_alpha {d : ℕ} (h : d < 10) :
    (Char.ofNat (48 + d)).isAlpha = false := by
  interval_cases d <;> decide

/-- Every character produced by `natDigitsAux` is a decimal digit. -/
theorem natDigitsAux_shape :
    ∀ (fuel n : ℕ), ∀ c ∈ natDigitsAux fuel n, ∃ d, d < 10 ∧ c = Char.ofNat (48 + d) := by
  intro fuel
  induction fuel with
  | zero =>
    intro n c hc
    cases n <;> simp [natDigitsAux] at hc
  | succ fuel ih =>
    intro n c hc
    cases n with
    | zero => simp [natDigitsAux] at hc
    | succ m =>
      rw [natDigitsAux] at hc
      rcases List.mem_cons.mp hc with h | h
      · exact ⟨(m + 1) % 10, Nat.mod_lt _ (by norm_num), h⟩
      · exact ih _ c h

theorem natVal_append_singleton (l : List Char) (c : Char) :
    natVal (l ++ [c]) = 10 * natVal l + (c.toNat - 48) := by
  unfold natVal
  rw [List.foldl_append]
  rfl

/-- Decimal printing and reading round-trip. -/
theorem natVal_natDigitsAux :
    ∀ (fuel n : ℕ), n ≤ fuel → natVal ((natDigitsAux fuel n).reverse) = n := by
  intro fuel
  induction fuel with
  | zero =>
    intro n h
    interval_cases n
    rfl
  | succ fuel ih =>
    intro n h
    cases n with
    | zero => rfl
    | succ m =>
      rw [natDigitsAux, List.reverse_cons, natVal_append_singleton]
      have hle : (m + 1) / 10 ≤ fuel := by
        have := Nat.div_lt_self (Nat.succ_pos m) (by norm_num : 1 < 10)
        omega
      rw [ih _ hle, digitChar_toNat (Nat.mod_lt _ (by norm_num))]
      omega

theorem natVal_natChars (n : ℕ) : natVal (natChars n) = n := by
  unfold natChars
  split
  · rename_i h
    rw [h]
    rfl
  · exact natVal_natDigitsAux n n le_rfl

theorem natChars_ne_nil (n : ℕ) : natChars n ≠ [] := by
  unfold natChars
  split
  · simp
  · rename_i h
    cases n with
    | zero => exact absurd rfl h
    | succ m =>
      rw [natDigitsAux]
      simp

theorem natChars_shape (n : ℕ) :
    ∀ c ∈ natChars n, ∃ d, d < 10 ∧ c = Char.ofNat (48 + d) := by
  unfold natChars
  split
  · intro c hc
    simp at hc
    exact ⟨0, by norm_num, by rw [hc]⟩
  · intro c hc
    exact natDigitsAux_shape n n c (List.mem_reverse.mp hc)

/-- Digit-count bound for `natDigitsAux`. -/
theorem natDigitsAux_length :
    ∀ (k fuel n : ℕ), n ≤ fuel → n < 10 ^ k → (natDigitsAux fuel n).length ≤ k := by
  intro k
  induction k with
  | zero =>
    intro fuel n h hk
    interval_cases n
    cases fuel <;> simp [natDigitsAux]
  | succ k ih =>
    intro fuel n h hk
    cases n with
    | zero => cases fuel <;> simp [natDigitsAux]
    | succ m =>
      cases fuel with
      | zero => omega
      | succ fuel =>
        rw [natDigitsAux, List.length_cons]
        have h1 : (m + 1) / 10 ≤ fuel := by
          have := Nat.div_lt_self (Nat.succ_pos m) (by norm_num : 1 < 10)
          omega
        have h2 : (m + 1) / 10 < 10 ^ k := by
          rw [Nat.div_lt_iff_lt_mul (by norm_num : 0 < 10)]
          calc m + 1 < 10 ^ (k + 1) := hk
            _ = 10 ^ k * 10 := by ring
        have := ih fuel ((m + 1) / 10) h1 h2
        omega

theorem natChars_length_le {k n : ℕ} (hk : 1 ≤ k) (h : n < 10 ^ k) :
    (natChars n).length ≤ k := by
  unfold natChars
  split
  · simpa using hk
  · rw [List.length_reverse]
    exact natDigitsAux_length k n n le_rfl h

/-- Leading zeros do not change the parsed value. -/
theorem natVal_replicate_zero_append (k : ℕ) (l : List Char) :
    natVal (List.replicate k '0' ++ l) = natVal l := by
  induction k with
  | zero => rfl
  | succ k ih =>
    rw [List.replicate_succ, List.cons_append]
    show natVal (List.replicate k '0' ++ l) = natVal l
    exact ih

/-! ## Toolbox for claim C3: list surgery -/

theorem splitDots_no_dot :
    ∀ (l : List Char), (∀ c ∈ l, c ≠ '.') → splitDots l = [l] := by
  intro l
  induction l with
  | nil => intro _; rfl
  | cons c rest ih =>
    intro h
    rw [splitDots]
    rw [if_neg (h c (List.mem_cons_self c rest))]
    rw [ih (fun x hx => h x (List.mem_cons_of_mem c hx))]

theorem splitDots_dot_append :
    ∀ (a : List Char) (b : List Char), (∀ c ∈ a, c ≠ '.') →
      splitDots (a ++ '.' :: b) = a :: splitDots b := by
  intro a
  induction a with
  | nil =>
    intro b _
    rw [List.nil_append, splitDots, if_pos rfl]
  | cons c rest ih =>
    intro b h
    rw [List.cons_append, splitDots]
    rw [if_neg (h c (List.mem_cons_self c rest))]
    rw [ih b (fun x hx => h x (List.mem_cons_of_mem c hx))]

theorem parseDec_num_frac (a b : List Char) (ha : a ≠ [])
    (hda : ∀ c ∈ a, c ≠ '.') (hdb : ∀ c ∈ b, c ≠ '.') :
    parseDec (a ++ '.' :: b) =
      some ((natVal a : ℚ) + (natVal b : ℚ) / 10 ^ b.length) := by
  unfold parseDec
  rw [splitDots_dot_append a b hda, splitDots_no_dot b hdb]
  simp [ha]

theorem parseDec_digits (a : List Char) (ha : a ≠ []) (hda : ∀ c ∈ a, c ≠ '.') :
    parseDec a = some ((natVal a : ℚ)) := by
  unfold parseDec
  rw [splitDots_no_dot a hda]
  simp [ha]

theorem takeWhile_all_stop {p : Char → Bool} (a : List Char) (x : Char)
    (b : List Char) (ha : ∀ c ∈ a, p c = true) (hx : p x = false) :
    (a ++ x :: b).takeWhile p = a := by
  induction a with
  | nil => simp [List.takeWhile_cons, hx]
  | cons c rest ih =>
    rw [List.cons_append, List.takeWhile_cons,
      ha c (List.mem_cons_self c rest)]
    rw [ih (fun y hy => ha y (List.mem_cons_of_mem c hy))]
    simp

theorem dropWhile_all_stop {p : Char → Bool} (a : List Char) (x : Char)
    (b : List Char) (ha : ∀ c ∈ a, p c = true) (hx : p x = false) :
    (a ++ x :: b).dropWhile p = x :: b := by
  induction a with
  | nil => simp [List.dropWhile_cons, hx]
  | cons c rest ih =>
    rw [List.cons_append, List.dropWhile_cons,
      ha c (List.mem_cons_self c rest)]
    simp only [if_true]
    rw [ih (fun y hy => ha y (List.mem_cons_of_mem c hy))]

theorem dropWhile_cons_neg {p : Char → Bool} (c : Char) (l : List Char)
    (h : p c = false) : (c :: l).dropWhile p = c :: l := by
  rw [List.dropWhile_cons, h]
  simp

theorem rstripChar_last_ne (l : List Char) (c ch : Char) (h : c ≠ ch) :
    rstripChar (l ++ [c]) ch = l ++ [c] := by
  unfold rstripChar
  have hrev : (l ++ [c]).reverse = c :: l.reverse := by simp
  rw [hrev, dropWhile_cons_neg c _ (by simp [h]), ← hrev, List.reverse_reverse]

theorem stripChars_sandwich (c₁ c₂ : Char) (mid : List Char)
    (h1 : pyIsSpace c₁ = false) (h2 : pyIsSpace c₂ = false) :
    stripChars (c₁ :: (mid ++ [c₂])) = c₁ :: (mid ++ [c₂]) := by
  unfold stripChars
  rw [dropWhile_cons_neg c₁ (mid ++ [c₂]) h1]
  have hrev : (c₁ :: (mid ++ [c₂])).reverse = c₂ :: (mid.reverse ++ [c₁]) := by
    simp
  rw [hrev, dropWhile_cons_neg c₂ _ h2, ← hrev, List.reverse_reverse]

theorem stripChars_single (c : Char) (h : pyIsSpace c = false) :
    stripChars [c] = [c] := by
  unfold stripChars
  rw [dropWhile_cons_neg c [] h]
  rw [List.reverse_cons, List.reverse_nil, List.nil_append,
    dropWhile_cons_neg c [] h]
  simp

theorem map_toUpper_id (l : List Char) (h : ∀ c ∈ l, Char.toUpper c = c) :
    l.map Char.toUpper = l := by
  induction l with
  | nil => rfl
  | cons c rest ih =>
    rw [List.map_cons, h c (List.mem_cons_self c rest),
      ih (fun x hx => h x (List.mem_cons_of_mem c hx))]

/-! ## Toolbox for claim C3: loop and float characterizations -/

theorem hrLoopAux_stop (fuel : ℕ) (q : ℚ) (idx : ℕ) (h : q < 1024) :
    hrLoopAux fuel q idx = (q, idx) := by
  cases fuel with
  | zero => rfl
  | succ f => rw [hrLoopAux, if_neg (not_le.mpr h)]

theorem hrLoopAux_step (fuel : ℕ) (q : ℚ) (idx : ℕ) (h : 1024 ≤ q) :
    hrLoopAux (fuel + 1) q idx = hrLoopAux fuel (q / 1024) (idx + 1) := by
  rw [hrLoopAux, if_pos h]

/-- The unit-selection loop on a value in `[1024^k, 1024^(k+1))` for
`1 ≤ k ≤ 4` performs exactly `k` divisions. -/
theorem hrLoop_char (s : ℚ) (k : ℕ) (hk1 : 1 ≤ k) (hk : k ≤ 4)
    (h1 : (1024:ℚ)^k ≤ s) (h2 : s < (1024:ℚ)^(k+1)) :
    hrLoopAux 5 s 0 = (s / 1024^k, k) := by
  have pos1024 : (0:ℚ) < 1024 := by norm_num
  interval_cases k
  · norm_num at h1 h2
    rw [show (5:ℕ) = 4 + 1 from rfl]
    rw [hrLoopAux_step 4 s 0 (by linarith)]
    rw [hrLoopAux_stop 4 _ 1 (by rw [div_lt_iff₀ pos1024]; linarith)]
    norm_num
  · norm_num at h1 h2
    rw [show (5:ℕ) = 4 + 1 from rfl]
    rw [hrLoopAux_step 4 s 0 (by linarith)]
    rw [show (4:ℕ) = 3 + 1 from rfl]
    rw [hrLoopAux_step 3 _ 1 (by rw [le_div_iff₀ pos1024]; linarith)]
    rw [hrLoopAux_stop 3 _ 2 (by
      rw [div_lt_iff₀ pos1024, div_lt_iff₀ pos1024]; linarith)]
    rw [div_div]
    norm_num
  · norm_num at h1 h2
    rw [show (5:ℕ) = 4 + 1 from rfl]
    rw [hrLoopAux_step 4 s 0 (by linarith)]
    rw [show (4:ℕ) = 3 + 1 from rfl]
    rw [hrLoopAux_step 3 _ 1 (by rw [le_div_iff₀ pos1024]; linarith)]
    rw [show (3:ℕ) = 2 + 1 from rfl]
    rw [hrLoopAux_step 2 _ 2 (by
      rw [le_div_iff₀ pos1024, le_div_iff₀ pos1024]
      linarith)]
    rw [hrLoopAux_stop 2 _ 3 (by
      rw [div_lt_iff₀ pos1024, div_lt_iff₀ pos1024, div_lt_iff₀ pos1024]
      linarith)]
    rw [div_div, div_div]
    norm_num
  · norm_num at h1 h2
    rw [show (5:ℕ) = 4 + 1 from rfl]
    rw [hrLoopAux_step 4 s 0 (by linarith)]
    rw [show (4:ℕ) = 3 + 1 from rfl]
    rw [hrLoopAux_step 3 _ 1 (by rw [le_div_iff₀ pos1024]; linarith)]
    rw [show (3:ℕ) = 2 + 1 from rfl]
    rw [hrLoopAux_step 2 _ 2 (by
      rw [le_div_iff₀ pos1024, le_div_iff₀ pos1024]
      linarith)]
    rw [show (2:ℕ) = 1 + 1 from rfl]
    rw [hrLoopAux_step 1 _ 3 (by
      rw [le_div_iff₀ pos1024, le_div_iff₀ pos1024, le_div_iff₀ pos1024]
      linarith)]
    rw [hrLoopAux_stop 1 _ 4 (by
      rw [div_lt_iff₀ pos1024, div_lt_iff₀ pos1024, div_lt_iff₀ pos1024,
        div_lt_iff₀ pos1024]
      linarith)]
    rw [div_div, div_div, div_div]
    norm_num

/-- Every rounded binary64 value is an integer at most `2⁵³` times a power
of two. -/
theorem fl53_shape {q : ℚ} (hq : 0 < q) :
    ∃ (m j : ℤ), fl53 q = (m:ℚ) * 2 ^ j ∧ 0 < m ∧ m ≤ 2 ^ 53 := by
  set L : ℤ := Int.log 2 q with hL
  set x : ℚ := q / 2 ^ (L - 52) with hx
  have hpow : (0:ℚ) < 2 ^ (L - 52) := by positivity
  have hgle : (2:ℚ) ^ L ≤ q := by
    exact_mod_cast Int.zpow_log_le_self (by norm_num : 1 < 2) hq
  have hglt : q < (2:ℚ) ^ (L + 1) := by
    exact_mod_cast Int.lt_zpow_succ_log_self (by norm_num : 1 < 2) q
  have hx1 : (2:ℚ) ^ (52:ℤ) ≤ x := by
    rw [hx, le_div_iff hpow, ← zpow_add₀ (by norm_num : (2:ℚ) ≠ 0)]
    calc (2:ℚ) ^ (52 + (L - 52)) = 2 ^ L := by ring_nf
      _ ≤ q := hgle
  have hx2 : x < (2:ℚ) ^ (53:ℤ) := by
    rw [hx, div_lt_iff hpow, ← zpow_add₀ (by norm_num : (2:ℚ) ≠ 0)]
    calc q < 2 ^ (L + 1) := hglt
      _ = (2:ℚ) ^ (53 + (L - 52)) := by ring_nf
  have hfl : (2:ℤ) ^ 52 ≤ ⌊x⌋ := by
    rw [Int.le_floor]
    calc ((2 ^ 52 : ℤ) : ℚ) = (2:ℚ) ^ (52:ℤ) := by norm_num
      _ ≤ x := hx1
  have hfu : ⌊x⌋ < 2 ^ 53 := by
    have : (⌊x⌋ : ℚ) < (2:ℚ) ^ (53:ℤ) := lt_of_le_of_lt (Int.floor_le x) hx2
    have h2 : ((2 ^ 53 : ℤ) : ℚ) = (2:ℚ) ^ (53:ℤ) := by norm_num
    rw [← h2] at this
    exact_mod_cast this
  refine ⟨rhe x, L - 52, ?_, ?_, ?_⟩
  · unfold fl53
    rw [if_pos hq, ← hL, ← hx]
  · have := rhe_ge_floor x
    have h52 : (0:ℤ) < 2 ^ 52 := by norm_num
    omega
  · have := rhe_le_floor_add_one x
    omega

/-- Multiplying an already-rounded binary64 value by `1024^k` is exact. -/
theorem fl53_mul_1024pow {q : ℚ} (hq : 0 < q) (k : ℕ) :
    fl53 (fl53 q * ((1024:ℚ) ^ k)) = fl53 q * 1024 ^ k := by
  obtain ⟨m, j, hql, hm0, hm53⟩ := fl53_shape hq
  rw [hql]
  have h1024 : ((1024:ℚ))^k = 2 ^ ((10 * k : ℕ) : ℤ) := by
    rw [zpow_natCast]
    rw [show (1024:ℚ) = 2^(10:ℕ) by norm_num, ← pow_mul]
  rw [h1024, mul_assoc, ← zpow_add₀ (by norm_num : (2:ℚ) ≠ 0)]
  exact fl53_dyadic hm0 hm53

/-- Generic evaluation of `human_readable_to_bytes` on a generated string
`<digits>.<digits> <unit> <unit>`: the regex match yields the numeric
literal and the first unit word; the lookup decides between unit scaling
and the bytes fallback. -/
theorem parse_generated (a f2 U : List Char)
    (haNe : a ≠ [])
    (haDig : ∀ c ∈ a, ∃ d, d < 10 ∧ c = Char.ofNat (48 + d))
    (hfDig : ∀ c ∈ f2, ∃ d, d < 10 ∧ c = Char.ofNat (48 + d))
    (hUne : U ≠ [])
    (hUalpha : ∀ c ∈ U, c.isAlpha = true)
    (hUupper : ∀ c ∈ U, Char.toUpper c = c)
    (hUsp : ∀ c ∈ U, pyIsSpace c = false) :
    humanReadableToBytes (a ++ ('.' :: (f2 ++ (' ' :: (U ++ (' ' :: U)))))) =
      (match lookupUnit U with
       | some u =>
         pyTrunc (fl53 (fl53 ((natVal a : ℚ) + (natVal f2 : ℚ) / 10 ^ f2.length)
           * (u : ℚ)))
       | none =>
         pyTrunc (fl53 ((natVal a : ℚ) + (natVal f2 : ℚ) / 10 ^ f2.length))) := by
  set L : List Char := a ++ ('.' :: (f2 ++ (' ' :: (U ++ (' ' :: U))))) with hLdef
  have haDD : ∀ c ∈ a, isDigitDot c = true := fun c hc => by
    obtain ⟨d, hd, rfl⟩ := haDig c hc
    exact digitChar_isDigitDot hd
  have hfDD : ∀ c ∈ f2, isDigitDot c = true := fun c hc => by
    obtain ⟨d, hd, rfl⟩ := hfDig c hc
    exact digitChar_isDigitDot hd
  have haNd : ∀ c ∈ a, c ≠ '.' := fun c hc => by
    obtain ⟨d, hd, rfl⟩ := haDig c hc
    exact digitChar_ne_dot hd
  have hfNd : ∀ c ∈ f2, c ≠ '.' := fun c hc => by
    obtain ⟨d, hd, rfl⟩ := hfDig c hc
    exact digitChar_ne_dot hd
  have h_strip : stripChars L = L := by
    obtain ⟨c₁, a', ha⟩ := List.exists_cons_of_ne_nil haNe
    rcases (List.eq_nil_or_concat U) with hU | ⟨U', c₂, hU⟩
    · exact absurd hU hUne
    have hshape : L = c₁ ::
        ((a' ++ ('.' :: (f2 ++ (' ' :: (U ++ (' ' :: U')))))) ++ [c₂]) := by
      rw [hLdef, ha, hU]
      simp [List.concat_eq_append, List.append_assoc]
    rw [hshape, stripChars_sandwich _ _ _ ?h1 ?h2, ← hshape]
    case h1 =>
      obtain ⟨d, hd, hcd⟩ := haDig c₁ (by rw [ha]; exact List.mem_cons_self _ _)
      rw [hcd]
      exact digitChar_not_space hd
    case h2 =>
      exact hUsp c₂ (by rw [hU]; simp)
  have h_up : L.map Char.toUpper = L := by
    apply map_toUpper_id
    intro c hc
    rw [hLdef] at hc
    simp only [List.mem_append, List.mem_cons] at hc
    rcases hc with hc | hc | hc | hc | hc | hc | hc
    · obtain ⟨d, hd, rfl⟩ := haDig c hc
      exact digitChar_toUpper hd
    · rw [hc]; decide
    · obtain ⟨d, hd, rfl⟩ := hfDig c hc
      exact digitChar_toUpper hd
    · rw [hc]; decide
    · exact hUupper c hc
    · rw [hc]; decide
    · exact hUupper c hc
  have hLne : L ≠ [] := by
    rw [hLdef]
    obtain ⟨c₁, a', ha⟩ := List.exists_cons_of_ne_nil haNe
    rw [ha]
    simp
  have h_num : L.takeWhile isDigitDot = a ++ '.' :: f2 := by
    have hshape : L = (a ++ '.' :: f2) ++ ' ' :: (U ++ (' ' :: U)) := by
      rw [hLdef]
      simp [List.append_assoc]
    rw [hshape]
    apply takeWhile_all_stop
    · intro c hc
      simp only [List.mem_append, List.mem_cons] at hc
      rcases hc with hc | hc | hc
      · exact haDD c hc
      · rw [hc]; decide
      · exact hfDD c hc
    · decide
  have h_rest : L.dropWhile isDigitDot = ' ' :: (U ++ (' ' :: U)) := by
    have hshape : L = (a ++ '.' :: f2) ++ ' ' :: (U ++ (' ' :: U)) := by
      rw [hLdef]
      simp [List.append_assoc]
    rw [hshape]
    apply dropWhile_all_stop
    · intro c hc
      simp only [List.mem_append, List.mem_cons] at hc
      rcases hc with hc | hc | hc
      · exact haDD c hc
      · rw [hc]; decide
      · exact hfDD c hc
    · decide
  have h_rest2 : (' ' :: (U ++ (' ' :: U))).dropWhile pyIsSpace = U ++ (' ' :: U) := by
    rw [List.dropWhile_cons]
    simp only [show pyIsSpace ' ' = true from rfl, if_true]
    obtain ⟨u₁, U'', hU⟩ := List.exists_cons_of_ne_nil hUne
    rw [hU, List.cons_append]
    exact dropWhile_cons_neg _ _ (hUsp u₁ (by rw [hU]; exact List.mem_cons_self _ _))
  have h_unit : (U ++ (' ' :: U)).takeWhile (fun c => c.isAlpha) = U := by
    apply takeWhile_all_stop
    · exact hUalpha
    · decide
  have h_parse : parseDec (a ++ '.' :: f2) =
      some ((natVal a : ℚ) + (natVal f2 : ℚ) / 10 ^ f2.length) :=
    parseDec_num_frac a f2 haNe haNd hfNd
  unfold humanReadableToBytes
  simp only [h_strip, h_up, h_num, h_rest, h_rest2, h_unit, h_parse]
  rw [if_neg hLne]
  have hnumNe : a ++ '.' :: f2 ≠ [] := by
    obtain ⟨c₁, a', ha⟩ := List.exists_cons_of_ne_nil haNe
    rw [ha]
    simp
  rw [if_pos ⟨hnumNe, hUne⟩]

/-- Evaluation of `human_readable_to_bytes` on a generated byte string
`<digits> B`. -/
theorem parse_plain_bytes (a : List Char)
    (haNe : a ≠ [])
    (haDig : ∀ c ∈ a, ∃ d, d < 10 ∧ c = Char.ofNat (48 + d)) :
    humanReadableToBytes (a ++ (' ' :: ['B'])) =
      pyTrunc (fl53 (fl53 ((natVal a : ℚ)) * ((1 : ℕ) : ℚ))) := by
  set L : List Char := a ++ (' ' :: ['B']) with hLdef
  have haDD : ∀ c ∈ a, isDigitDot c = true := fun c hc => by
    obtain ⟨d, hd, rfl⟩ := haDig c hc
    exact digitChar_isDigitDot hd
  have haNd : ∀ c ∈ a, c ≠ '.' := fun c hc => by
    obtain ⟨d, hd, rfl⟩ := haDig c hc
    exact digitChar_ne_dot hd
  have h_strip : stripChars L = L := by
    obtain ⟨c₁, a', ha⟩ := List.exists_cons_of_ne_nil haNe
    have hshape : L = c₁ :: ((a' ++ [' ']) ++ ['B']) := by
      rw [hLdef, ha]
      simp
    rw [hshape, stripChars_sandwich _ _ _ ?h1 ?h2, ← hshape]
    case h1 =>
      obtain ⟨d, hd, hcd⟩ := haDig c₁ (by rw [ha]; exact List.mem_cons_self _ _)
      rw [hcd]
      exact digitChar_not_space hd
    case h2 => decide
  have h_up : L.map Char.toUpper = L := by
    apply map_toUpper_id
    intro c hc
    rw [hLdef] at hc
    simp only [List.mem_append, List.mem_cons, List.not_mem_nil, or_false] at hc
    rcases hc with hc | hc | hc
    · obtain ⟨d, hd, rfl⟩ := haDig c hc
      exact digitChar_toUpper hd
    · rw [hc]; decide
    · rw [hc]; decide
  have hLne : L ≠ [] := by
    rw [hLdef]
    obtain ⟨c₁, a', ha⟩ := List.exists_cons_of_ne_nil haNe
    rw [ha]
    simp
  have h_num : L.takeWhile isDigitDot = a := by
    rw [hLdef]
    exact takeWhile_all_stop a ' ' ['B'] haDD (by decide)
  have h_rest : L.dropWhile isDigitDot = ' ' :: ['B'] := by
    rw [hLdef]
    exact dropWhile_all_stop a ' ' ['B'] haDD (by decide)
  have h_rest2 : ((' ' :: ['B']) : List Char).dropWhile pyIsSpace = ['B'] := by
    decide
  have h_parse : parseDec a = some ((natVal a : ℚ)) :=
    parseDec_digits a haNe haNd
  unfold humanReadableToBytes
  simp only [h_strip, h_up, h_num, h_rest, h_rest2, h_parse]
  rw [if_neg hLne]
  rw [if_pos ⟨haNe, by decide⟩]
  rfl

theorem fl53_natCast {s : ℕ} (h0 : 0 < s) (h : (s:ℤ) ≤ 2 ^ 53) :
    fl53 ((s:ℚ)) = (s:ℚ) := by
  have := fl53_dyadic (m := (s:ℤ)) (j := 0) (by exact_mod_cast h0) h
  have hc : ((s:ℤ):ℚ) * 2 ^ (0:ℤ) = (s:ℚ) := by push_cast; ring
  rw [hc] at this
  exact this

theorem formatFixed_two (q : ℚ) :
    formatFixed q 2 =
      natChars ((rhe (q * 100)).toNat / 100) ++
        '.' :: (List.replicate
          (2 - (natChars ((rhe (q * 100)).toNat % 100)).length) '0' ++
          natChars ((rhe (q * 100)).toNat % 100)) := by
  unfold formatFixed
  rw [if_neg (by norm_num)]
  norm_num

theorem contains_of_mem {l : List Char} {c : Char} (h : c ∈ l) :
    l.contains c = true := by
  induction l with
  | nil => simp at h
  | cons x rest ih =>
    rcases List.mem_cons.mp h with h | h
    · simp [List.contains, List.elem_cons, h]
    · have := ih h
      simp [List.contains] at this ⊢
      exact Or.inr (by simpa using this)

/-- Rendering of `bytes_to_human_readable` for a value needing `k ∈ [1,4]`
divisions: digits, dot, two fractional digits, then the unit twice (the
intended trailing-zero strip never strips — the string ends with the unit,
not with the digits — and then re-appends the unit). -/
theorem b2h_mid (s k : ℕ) (hk1 : 1 ≤ k) (hk : k ≤ 4)
    (h1 : (1024:ℚ)^k ≤ (s:ℚ)) (h2 : (s:ℚ) < (1024:ℚ)^(k+1))
    (hU : ∃ U0 c, UNITS.getD k [] = U0 ++ [c] ∧ c ≠ '0' ∧ c ≠ '.') :
    bytesToHumanReadable ((s:ℕ) : ℤ) 2 =
      natChars ((rhe ((s:ℚ) / 1024^k * 100)).toNat / 100) ++
        ('.' :: ((List.replicate
            (2 - (natChars ((rhe ((s:ℚ)/1024^k * 100)).toNat % 100)).length) '0' ++
            natChars ((rhe ((s:ℚ)/1024^k * 100)).toNat % 100)) ++
          (' ' :: (UNITS.getD k [] ++ (' ' :: UNITS.getD k []))))) := by
  have hs1024 : (1024:ℚ) ≤ (s:ℚ) := by
    calc (1024:ℚ) = 1024^1 := by norm_num
      _ ≤ 1024^k := by
        apply pow_le_pow_right₀ (by norm_num) hk1
      _ ≤ (s:ℚ) := h1
  have hs0 : 0 < s := by
    by_contra hc
    push_neg at hc
    interval_cases s
    norm_num at hs1024
  have h53 : ((s:ℕ):ℤ) ≤ 2 ^ 53 := by
    have : (s:ℚ) < (1024:ℚ)^5 := by
      calc (s:ℚ) < (1024:ℚ)^(k+1) := h2
        _ ≤ 1024^5 := by
          apply pow_le_pow_right₀ (by norm_num)
          omega
    have h5 : (s:ℚ) < 2^53 := by
      calc (s:ℚ) < (1024:ℚ)^5 := this
        _ ≤ 2^53 := by norm_num
    exact_mod_cast le_of_lt h5
  unfold bytesToHumanReadable
  rw [if_neg (by simp : ¬ ((s:ℕ):ℤ) < 0),
    if_neg (Int.natCast_ne_zero.mpr hs0.ne')]
  have hcast : (((s:ℕ):ℤ) : ℚ) = (s:ℚ) := by push_cast; ring
  rw [hcast, fl53_natCast hs0 h53, hrLoop_char (s:ℚ) k hk1 hk h1 h2]
  simp only
  rw [if_neg (by omega : ¬ k = 0)]
  rw [formatFixed_two]
  obtain ⟨U0, cl, hU0, hc0, hcdot⟩ := hU
  have hcont : ((natChars ((rhe ((s:ℚ)/1024^k * 100)).toNat / 100) ++
      '.' :: (List.replicate
        (2 - (natChars ((rhe ((s:ℚ)/1024^k * 100)).toNat % 100)).length) '0' ++
        natChars ((rhe ((s:ℚ)/1024^k * 100)).toNat % 100))) ++
      ' ' :: UNITS.getD k []).contains '.' = true := by
    apply contains_of_mem
    simp
  rw [if_pos hcont]
  have hshape : (natChars ((rhe ((s:ℚ)/1024^k * 100)).toNat / 100) ++
      '.' :: (List.replicate
        (2 - (natChars ((rhe ((s:ℚ)/1024^k * 100)).toNat % 100)).length) '0' ++
        natChars ((rhe ((s:ℚ)/1024^k * 100)).toNat % 100))) ++
      ' ' :: UNITS.getD k [] =
      ((natChars ((rhe ((s:ℚ)/1024^k * 100)).toNat / 100) ++
      '.' :: (List.replicate
        (2 - (natChars ((rhe ((s:ℚ)/1024^k * 100)).toNat % 100)).length) '0' ++
        natChars ((rhe ((s:ℚ)/1024^k * 100)).toNat % 100))) ++
      (' ' :: U0)) ++ [cl] := by
    rw [hU0]
    simp
  rw [hshape, rstripChar_last_ne _ _ _ hc0, rstripChar_last_ne _ _ _ hcdot,
    ← hshape]
  rw [hU0]
  simp [List.append_assoc]

/-- Rendering of `bytes_to_human_readable` for `1 ≤ s < 1024`:
`"<s> B"` with no fractional part. -/
theorem b2h_small (s : ℕ) (h0 : 0 < s) (h : s < 1024) :
    bytesToHumanReadable ((s:ℕ) : ℤ) 2 = natChars s ++ (' ' :: ['B']) := by
  unfold bytesToHumanReadable
  rw [if_neg (by simp : ¬ ((s:ℕ):ℤ) < 0),
    if_neg (Int.natCast_ne_zero.mpr h0.ne')]
  have hcast : (((s:ℕ):ℤ) : ℚ) = (s:ℚ) := by push_cast; ring
  have h53 : ((s:ℕ):ℤ) ≤ 2 ^ 53 := by
    have : (s:ℤ) < 1024 := by exact_mod_cast h
    omega
  rw [hcast, fl53_natCast h0 h53,
    hrLoopAux_stop 5 (s:ℚ) 0 (by exact_mod_cast h)]
  simp only [if_true]
  have htr : pyTrunc ((s:ℚ)) = (s:ℤ) := by
    rw [pyTrunc_of_nonneg (by positivity)]
    exact_mod_cast Int.floor_natCast s
  rw [htr]
  have : ((s:ℤ)).toNat = s := by omega
  rw [this]
  rfl

/-- Exact round-trip for `1 ≤ s < 1024`. -/
theorem roundtrip_small (s : ℕ) (h0 : 0 < s) (h : s < 1024) :
    humanReadableToBytes (bytesToHumanReadable ((s:ℕ) : ℤ) 2) = (s:ℤ) := by
  rw [b2h_small s h0 h,
    parse_plain_bytes (natChars s) (natChars_ne_nil s) (natChars_shape s)]
  rw [natVal_natChars]
  have h53 : ((s:ℕ):ℤ) ≤ 2 ^ 53 := by
    have : (s:ℤ) < 1024 := by exact_mod_cast h
    omega
  rw [fl53_natCast h0 h53]
  have : (s:ℚ) * ((1:ℕ):ℚ) = (s:ℚ) := by push_cast; ring
  rw [this, fl53_natCast h0 h53, pyTrunc_of_nonneg (by positivity)]
  exact_mod_cast Int.floor_natCast s

/-- Exact round-trip for `s = 0`. -/
theorem roundtrip_zero :
    humanReadableToBytes (bytesToHumanReadable ((0:ℕ) : ℤ) 2) = (0:ℤ) := by
  have hb : bytesToHumanReadable ((0:ℕ) : ℤ) 2 = ['0', ' ', 'B'] := by
    unfold bytesToHumanReadable
    norm_num
  rw [hb]
  have hsplit : (['0', ' ', 'B'] : List Char) = ['0'] ++ (' ' :: ['B']) := rfl
  rw [hsplit, parse_plain_bytes ['0'] (by simp)
    (by intro c hc; simp at hc; exact ⟨0, by norm_num, by rw [hc]⟩)]
  have h0 : natVal ['0'] = 0 := rfl
  rw [h0]
  show pyTrunc (fl53 (fl53 0 * _)) = 0
  have hf0 : fl53 (0:ℚ) = 0 := by
    unfold fl53
    rw [if_neg (by norm_num)]
  rw [hf0, zero_mul, hf0]
  rfl

/-- Round-trip bound for a value needing `k ∈ [1,4]` divisions: half a unit
in the last displayed decimal place (`1024^k / 200`), plus the binary64
parse rounding (at most `1/8` byte at these scales), plus integer
truncation. -/
theorem roundtrip_mid (s k : ℕ) (hk1 : 1 ≤ k) (hk : k ≤ 4)
    (h1 : (1024:ℚ)^k ≤ (s:ℚ)) (h2 : (s:ℚ) < (1024:ℚ)^(k+1)) :
    200 * |humanReadableToBytes (bytesToHumanReadable ((s:ℕ) : ℤ) 2) - (s:ℤ)|
      ≤ (s:ℤ) + 225 := by
  have hPpos : (0:ℚ) < 1024^k := by positivity
  set q : ℚ := (s:ℚ)/1024^k with hqdef
  have hq1 : 1 ≤ q := by
    rw [hqdef, le_div_iff₀ hPpos]
    linarith
  have hqlt : q < 1024 := by
    rw [hqdef, div_lt_iff₀ hPpos]
    calc (s:ℚ) < 1024^(k+1) := h2
      _ = 1024 * 1024^k := by ring
  set n : ℕ := (rhe (q * 100)).toNat with hndef
  have hrhe100 : (100:ℤ) ≤ rhe (q * 100) := by
    have hfl : (100:ℤ) ≤ ⌊q * 100⌋ := by
      rw [Int.le_floor]
      push_cast
      linarith
    have := rhe_ge_floor (q * 100)
    omega
  have hrheub : rhe (q * 100) ≤ 102400 := by
    have hfl : ⌊q * 100⌋ < 102400 := by
      rw [Int.floor_lt]
      push_cast
      linarith
    have := rhe_le_floor_add_one (q * 100)
    omega
  have hn100 : 100 ≤ n := by
    rw [hndef]
    omega
  have hnub : n ≤ 102400 := by
    rw [hndef]
    omega
  have hncast : (n:ℚ) = ((rhe (q * 100) : ℤ) : ℚ) := by
    have h0 : ((rhe (q * 100)).toNat : ℤ) = rhe (q * 100) :=
      Int.toNat_of_nonneg (by omega)
    rw [hndef]
    exact_mod_cast h0
  have hnerr : |(n:ℚ) - q * 100| ≤ 1/2 := by
    rw [hncast]
    exact rhe_sub_le (q * 100)
  rw [b2h_mid s k hk1 hk h1 h2 ?hU]
  case hU =>
    interval_cases k
    · exact ⟨['K'], 'B', rfl, by decide, by decide⟩
    · exact ⟨['M'], 'B', rfl, by decide, by decide⟩
    · exact ⟨['G'], 'B', rfl, by decide, by decide⟩
    · exact ⟨['T'], 'B', rfl, by decide, by decide⟩
  have hq100 : (s:ℚ)/1024^k * 100 = q * 100 := by rw [hqdef]
  rw [hq100]
  rw [parse_generated
    (natChars (n / 100))
    (List.replicate (2 - (natChars (n % 100)).length) '0' ++ natChars (n % 100))
    (UNITS.getD k []) (natChars_ne_nil _) (natChars_shape _) ?hf2 ?hUne ?hUa ?hUu ?hUs]
  case hf2 =>
    intro c hc
    rcases List.mem_append.mp hc with hc | hc
    · have := List.eq_of_mem_replicate hc
      exact ⟨0, by norm_num, by rw [this]⟩
    · exact natChars_shape _ c hc
  case hUne => interval_cases k <;> decide
  case hUa => interval_cases k <;> decide
  case hUu => interval_cases k <;> decide
  case hUs => interval_cases k <;> decide
  have hlook : lookupUnit (UNITS.getD k []) = some (1024^k) := by
    interval_cases k <;> rfl
  rw [hlook]
  simp only
  have hlen : (List.replicate (2 - (natChars (n % 100)).length) '0' ++
      natChars (n % 100)).length = 2 := by
    rw [List.length_append, List.length_replicate]
    have h2le : (natChars (n % 100)).length ≤ 2 :=
      natChars_length_le (by norm_num) (by
        have := Nat.mod_lt n (show 0 < 100 by norm_num)
        calc n % 100 < 100 := this
          _ ≤ 10^2 := by norm_num)
    omega
  rw [natVal_replicate_zero_append, natVal_natChars, natVal_natChars, hlen]
  have hv : ((n / 100 : ℕ):ℚ) + ((n % 100 : ℕ):ℚ) / 10 ^ (2:ℕ) = (n:ℚ) / 100 := by
    rw [show ((10:ℚ)^(2:ℕ)) = 100 by norm_num]
    field_simp
    norm_cast
    omega
  rw [hv]
  have hv0 : (0:ℚ) < (n:ℚ)/100 := by
    have : (0:ℚ) < (n:ℚ) := by exact_mod_cast lt_of_lt_of_le (by norm_num) hn100
    positivity
  have hcastu : (((1024:ℕ)^k : ℕ) : ℚ) = (1024:ℚ)^k := by push_cast; ring
  rw [hcastu, fl53_mul_1024pow hv0 k]
  set d : ℚ := fl53 ((n:ℚ)/100) with hddef
  have hderr : |d - (n:ℚ)/100| ≤ (n:ℚ)/100 * (2^53)⁻¹ := fl53_sub_le hv0
  have hd0 : 0 < d := by
    rcases abs_le.mp hderr with ⟨hlo, _⟩
    have hhalf : (n:ℚ)/100 * (2^53)⁻¹ ≤ (n:ℚ)/100 * (1/2) := by
      apply mul_le_mul_of_nonneg_left (by norm_num) (le_of_lt hv0)
    linarith
  rw [pyTrunc_of_nonneg (le_of_lt (mul_pos hd0 hPpos))]
  set x : ℚ := d * 1024^k with hxdef
  have hsq : (s:ℚ) = q * 1024^k := by
    rw [hqdef]
    field_simp
  have hb2 : |(n:ℚ)/100 - q| ≤ 1/200 := by
    have hrw : (n:ℚ)/100 - q = ((n:ℚ) - q * 100)/100 := by ring
    rw [hrw, abs_div, abs_of_pos (by norm_num : (0:ℚ) < 100)]
    linarith
  have hnb : (n:ℚ)/100 ≤ 1024 := by
    have : (n:ℚ) ≤ 102400 := by exact_mod_cast hnub
    linarith
  have hdq : |d - q| ≤ 1/200 + 1024 * (2^53)⁻¹ := by
    have t1 : |d - q| ≤ |d - (n:ℚ)/100| + |(n:ℚ)/100 - q| := abs_sub_le _ _ _
    have t2 : (n:ℚ)/100 * (2^53)⁻¹ ≤ 1024 * (2^53)⁻¹ :=
      mul_le_mul_of_nonneg_right hnb (by positivity)
    linarith
  have hP40 : (1024:ℚ)^k ≤ 2^40 := by
    have e1 : (1024:ℚ)^k ≤ 1024^4 := pow_le_pow_right₀ (by norm_num) hk
    have e2 : ((1024:ℚ))^4 = 2^40 := by norm_num
    linarith
  have hxs : |x - (s:ℚ)| ≤ 1024^k/200 + 1/8 := by
    have hfact : x - (s:ℚ) = (d - q) * 1024^k := by
      rw [hxdef, hsq]
      ring
    rw [hfact, abs_mul, abs_of_pos hPpos]
    have t1 : |d - q| * 1024^k ≤ (1/200 + 1024 * (2^53)⁻¹) * 1024^k :=
      mul_le_mul_of_nonneg_right hdq (le_of_lt hPpos)
    have t2 : (1/200 + 1024 * (2^53)⁻¹) * (1024:ℚ)^k =
        1024^k/200 + 1024 * (2^53)⁻¹ * 1024^k := by ring
    have t3 : (1024:ℚ) * (2^53)⁻¹ * 1024^k ≤ 1024 * (2^53)⁻¹ * 2^40 :=
      mul_le_mul_of_nonneg_left hP40 (by positivity)
    have t4 : (1024:ℚ) * (2^53)⁻¹ * 2^40 = 1/8 := by norm_num
    linarith
  have hfl1 : ((⌊x⌋ : ℤ) : ℚ) ≤ x := Int.floor_le x
  have hfl2 : x < ((⌊x⌋ : ℤ) : ℚ) + 1 := Int.lt_floor_add_one x
  have hPles : (1024:ℚ)^k ≤ (s:ℚ) := h1
  have hfinal : (200:ℚ) * |((⌊x⌋ : ℤ) : ℚ) - (s:ℚ)| ≤ (s:ℚ) + 225 := by
    rcases abs_le.mp hxs with ⟨hlo, hhi⟩
    have habs : |((⌊x⌋ : ℤ) : ℚ) - (s:ℚ)| ≤ 1024^k/200 + 1/8 + 1 := by
      rw [abs_le]
      constructor
      · linarith
      · linarith
    linarith
  have hcast2 : ((200 * |⌊x⌋ - (s:ℤ)| : ℤ) : ℚ) = 200 * |((⌊x⌋ : ℤ) : ℚ) - (s:ℚ)| := by
    push_cast
    ring
  have := hfinal
  rw [← hcast2] at this
  exact_mod_cast this

/-- C3 (amended): for every byte count `0 ≤ s < 1024⁵` (below 1 PiB),
converting to the human-readable string and parsing back recovers `s` within
the rounding tolerance of the two displayed decimals at the chosen unit:
`200·|roundtrip(s) − s| ≤ s + 225` (half a last-place decimal `1024^k/200 ≤
s/200`, at most `1/8` byte of binary64 parse rounding, and 1 for the final
integer truncation; exact for `s < 1024`).  Beyond `1024⁵` the claim fails:
the formatter emits the unit `PB`, which the parser's unit table does not
contain, so the numeric value is interpreted as bytes. -/
theorem C3_roundtrip_tolerance (s : ℕ) (h : s < 1024 ^ 5) :
    200 * |humanReadableToBytes (bytesToHumanReadable ((s:ℕ) : ℤ) 2) - (s:ℤ)|
      ≤ (s:ℤ) + 225 := by
  rcases Nat.eq_zero_or_pos s with rfl | h0
  · rw [roundtrip_zero]
    simp
  by_cases hc1 : s < 1024
  · rw [roundtrip_small s h0 hc1]
    simp
    positivity
  push_neg at hc1
  by_cases hc2 : s < 1024 ^ 2
  · exact roundtrip_mid s 1 (by norm_num) (by norm_num)
      (by push_cast; exact_mod_cast hc1) (by exact_mod_cast hc2)
  push_neg at hc2
  by_cases hc3 : s < 1024 ^ 3
  · exact roundtrip_mid s 2 (by norm_num) (by norm_num)
      (by exact_mod_cast hc2) (by exact_mod_cast hc3)
  push_neg at hc3
  by_cases hc4 : s < 1024 ^ 4
  · exact roundtrip_mid s 3 (by norm_num) (by norm_num)
      (by exact_mod_cast hc3) (by exact_mod_cast hc4)
  push_neg at hc4
  exact roundtrip_mid s 4 (by norm_num) (by norm_num)
    (by exact_mod_cast hc4) (by exact_mod_cast h)

/-- Witness for C3 at `s = 1536` (displayed as 1.50 KB). -/
theorem C3_roundtrip_witness :
    (1536 : ℕ) < 1024 ^ 5 ∧
    200 * |humanReadableToBytes (bytesToHumanReadable ((1536:ℕ) : ℤ) 2) - (1536:ℤ)|
      ≤ (1536:ℤ) + 225 :=
  ⟨by norm_num, C3_roundtrip_tolerance 1536 (by norm_num)⟩

/-- Rendering of exactly 1 PiB. -/
theorem b2h_pib :
    bytesToHumanReadable ((1024 ^ 5 : ℕ) : ℤ) 2 =
      ['1', '.', '0', '0', ' ', 'P', 'B', ' ', 'P', 'B'] := by
  unfold bytesToHumanReadable
  rw [if_neg (by simp : ¬ ((1024 ^ 5:ℕ):ℤ) < 0),
    if_neg (by norm_num : ((1024 ^ 5:ℕ):ℤ) ≠ 0)]
  have hcast : (((1024 ^ 5:ℕ):ℤ) : ℚ) = ((1024:ℚ) ^ 5) := by push_cast; ring
  rw [hcast]
  have hfl : fl53 ((1024:ℚ) ^ 5) = (1024:ℚ) ^ 5 := by
    have := fl53_natCast (s := 1024 ^ 5) (by norm_num) (by norm_num)
    rw [show (((1024 ^ 5 : ℕ)):ℚ) = ((1024:ℚ) ^ 5) by push_cast; ring] at this
    exact this
  rw [hfl]
  rw [show (5:ℕ) = 4 + 1 from rfl,
    hrLoopAux_step 4 _ 0 (by norm_num)]
  rw [show (4:ℕ) = 3 + 1 from rfl,
    hrLoopAux_step 3 _ 1 (by rw [le_div_iff₀ (by norm_num : (0:ℚ) < 1024)]; norm_num)]
  rw [show (3:ℕ) = 2 + 1 from rfl,
    hrLoopAux_step 2 _ 2 (by
      rw [le_div_iff₀ (by norm_num : (0:ℚ) < 1024),
        le_div_iff₀ (by norm_num : (0:ℚ) < 1024)]
      norm_num)]
  rw [show (2:ℕ) = 1 + 1 from rfl,
    hrLoopAux_step 1 _ 3 (by
      rw [le_div_iff₀ (by norm_num : (0:ℚ) < 1024),
        le_div_iff₀ (by norm_num : (0:ℚ) < 1024),
        le_div_iff₀ (by norm_num : (0:ℚ) < 1024)]
      norm_num)]
  rw [show (1:ℕ) = 0 + 1 from rfl,
    hrLoopAux_step 0 _ 4 (by
      rw [le_div_iff₀ (by norm_num : (0:ℚ) < 1024),
        le_div_iff₀ (by norm_num : (0:ℚ) < 1024),
        le_div_iff₀ (by norm_num : (0:ℚ) < 1024),
        le_div_iff₀ (by norm_num : (0:ℚ) < 1024)]
      norm_num)]
  rw [show hrLoopAux 0 ((1024:ℚ)^5 / 1024 / 1024 / 1024 / 1024 / 1024) 5 =
    ((1024:ℚ)^5 / 1024 / 1024 / 1024 / 1024 / 1024, 5) from rfl]
  simp only
  rw [if_neg (by norm_num : ¬ (5:ℕ) = 0)]
  rw [show ((1024:ℚ)^5 / 1024 / 1024 / 1024 / 1024 / 1024) = 1 by norm_num]
  rw [formatFixed_two 1]
  rw [show ((1:ℚ) * 100) = ((100:ℤ):ℚ) by norm_num, rhe_intCast]
  rfl

/-- C3 counterexample: the claim fails at `s = 1024⁵` (1 PiB): the string
is `"1.00 PB PB"`, the parser does not know the unit `PB` and falls back to
interpreting the numeric value as bytes, so the round-trip returns 1 — not
within any rounding tolerance of `1024⁵`. -/
theorem C3_counterexample :
    humanReadableToBytes (bytesToHumanReadable ((1024 ^ 5 : ℕ) : ℤ) 2) = 1 ∧
    ¬ (200 * |humanReadableToBytes (bytesToHumanReadable ((1024 ^ 5 : ℕ) : ℤ) 2)
        - ((1024 ^ 5 : ℕ) : ℤ)| ≤ ((1024 ^ 5 : ℕ) : ℤ) + 225) := by
  have hp : humanReadableToBytes (bytesToHumanReadable ((1024 ^ 5 : ℕ) : ℤ) 2) = 1 := by
    rw [b2h_pib]
    have hL : (['1', '.', '0', '0', ' ', 'P', 'B', ' ', 'P', 'B'] : List Char) =
        ['1'] ++ ('.' :: (['0', '0'] ++ (' ' :: (['P', 'B'] ++ (' ' :: ['P', 'B']))))) := rfl
    rw [hL, parse_generated ['1'] ['0', '0'] ['P', 'B'] (by simp)
      (by
        intro c hc
        simp at hc
        exact ⟨1, by norm_num, by rw [hc]⟩)
      (by
        intro c hc
        simp at hc
        exact ⟨0, by norm_num, by rw [hc]⟩)
      (by simp) (by decide) (by decide) (by decide)]
    rw [show lookupUnit ['P', 'B'] = none from rfl]
    simp only
    have hnv : ((natVal ['1'] : ℚ) + (natVal ['0', '0'] : ℚ) /
        10 ^ ((['0', '0'] : List Char).length)) = 1 := by
      norm_num [show natVal ['1'] = 1 from rfl, show natVal ['0', '0'] = 0 from rfl]
    rw [hnv, fl53_one]
    rfl
  refine ⟨hp, ?_⟩
  rw [hp]
  intro hcon
  have : ((1024 ^ 5 : ℕ) : ℤ) = 1024 ^ 5 := by push_cast
  rw [this] at hcon
  norm_num at hcon

end PCGC
